import Mathlib

/-
Verification of the NuXL modification-mass generator
(src/openms/source/ANALYSIS/NUXL/NuXLModificationsGenerator.cpp).

The development shallowly embeds `notInSeq`, `generateTargetSequences` and
`initModificationMassesNA` over executable Lean definitions.  C++ strings
become `List Char`; `std::map` and `std::set` become association lists and
lists kept in key order (maps are built exclusively through `alUpdate`, which
mirrors `operator[]`: modify the entry in place when the key is present,
otherwise insert at its ordered position, like `std::map` does).
`EmpiricalFormula` is external to the excerpt (the spec treats it as the
Formula Algebra collaborator), so it is modelled from the spec as a canonical
multiset of (element, count) pairs with addition, subtraction, rendering and
monoisotopic-mass computation.  Out-of-range container accesses (undefined
behaviour in C++) are modelled as `Option.none`; `std::string::operator[]`
at the index equal to `size()` returns the null character, as C++11 defines.
-/

namespace NuXL

/-- C++ strings are modelled as lists of characters. -/
abbrev Str := List Char

/-- Lexicographic strict order on strings, as used by `std::map<String, _>`
and `std::set<String>` (comparison by character code). -/
def strLtB : Str → Str → Bool
  | [], [] => false
  | [], _ :: _ => true
  | _ :: _, [] => false
  | a :: as, b :: bs => if a < b then true else if b < a then false else strLtB as bs

/-- The null character, returned by `std::string::operator[](size())`. -/
def nulChar : Char := Char.ofNat 0

/-- `std::string::operator[]`: defined result for indices up to and including
the length (the index `size()` yields the null terminator, per C++11);
anything beyond is undefined behaviour, modelled as `none`. -/
def cppAt (s : Str) (i : Nat) : Option Char :=
  if h : i < s.length then some (s.get ⟨i, h⟩)
  else if i = s.length then some nulChar
  else none

/-- First character of a string under C++ semantics (`s[0]`); total because
index 0 is always in the defined range (empty strings yield the terminator). -/
def cppHead (s : Str) : Char := s.headD nulChar

section AList

variable {κ : Type} {α : Type} [DecidableEq κ]

/-- Keys of an association-list map. -/
def alKeys (m : List (κ × α)) : List κ := m.map Prod.fst

/-- Lookup with default, like reading through a `const` find. -/
def alGetD (m : List (κ × α)) (k : κ) (d : α) : α :=
  match m with
  | [] => d
  | (k2, v) :: r => if k = k2 then v else alGetD r k d

/-- `std::map::find`. -/
def alFind (m : List (κ × α)) (k : κ) : Option α :=
  match m with
  | [] => none
  | (k2, v) :: r => if k = k2 then some v else alFind r k

/-- Replace the value at the first occurrence of a key. -/
def alModify (k : κ) (f : α → α) : List (κ × α) → List (κ × α)
  | [] => []
  | (k2, v) :: r => if k = k2 then (k2, f v) :: r else (k2, v) :: alModify k f r

/-- Insert a fresh entry at its ordered position. -/
def alInsort (lt : κ → κ → Bool) (e : κ × α) : List (κ × α) → List (κ × α)
  | [] => [e]
  | (k2, v) :: r =>
    if lt e.1 k2 then e :: (k2, v) :: r else (k2, v) :: alInsort lt e r

/-- `std::map::operator[]` followed by an update of the mapped value:
if the key is present, its value `v` becomes `f v`; otherwise a new entry
with value `f d` (where `d` models the value-initialised default) is inserted
at its ordered position. -/
def alUpdate (lt : κ → κ → Bool) (k : κ) (d : α) (f : α → α)
    (m : List (κ × α)) : List (κ × α) :=
  if k ∈ alKeys m then alModify k f m else alInsort lt (k, f d) m

/-- `std::map::erase(key)`: drop the entry with the given key. -/
def alErase (k : κ) (m : List (κ × α)) : List (κ × α) :=
  m.filter (fun p => ¬(p.1 = k))

end AList

section OrderedSet

variable {κ : Type} [DecidableEq κ]

/-- `std::set::insert`: no-op when present, ordered insertion otherwise. -/
def setInsort (lt : κ → κ → Bool) (x : κ) : List κ → List κ
  | [] => [x]
  | y :: r => if lt x y then x :: y :: r else y :: setInsort lt x r

/-- Insert into an ordered set. -/
def setInsert (lt : κ → κ → Bool) (x : κ) (s : List κ) : List κ :=
  if x ∈ s then s else setInsort lt x s

end OrderedSet

/-! ## Formula algebra

Modelled from the spec: the external Formula Algebra collaborator
"parses chemical-formula strings into atom-count vectors, supports
addition/subtraction, canonical string rendering, and mass computation
(monoisotopic weight)"; a Chemical Formula is a "multiset of
(element, count)", immutable, with structural equality after
canonicalization.  A formula is represented canonically as a list of
(element-symbol, count) pairs sorted by element symbol with no zero count. -/

/-- Element symbols are short strings such as "C", "H", "Na". -/
abbrev Element := Str

/-- Canonical chemical formula: (element, count) entries sorted by symbol,
zero counts dropped. -/
abbrev Formula := List (Element × Int)

/-- Merge one (element, count) entry into a canonical formula. -/
def addEntry (e : Element × Int) : Formula → Formula
  | [] => if e.2 = 0 then [] else [e]
  | (el2, n2) :: r =>
    if e.1 = el2 then (if e.2 + n2 = 0 then r else (el2, e.2 + n2) :: r)
    else if strLtB e.1 el2 then (if e.2 = 0 then (el2, n2) :: r else e :: (el2, n2) :: r)
    else (el2, n2) :: addEntry e r

/-- Formula addition (`EmpiricalFormula::operator+`). -/
def fAdd (f g : Formula) : Formula :=
  g.foldl (fun acc e => addEntry e acc) f

/-- Formula subtraction (`EmpiricalFormula::operator-`). -/
def fSub (f g : Formula) : Formula :=
  g.foldl (fun acc e => addEntry (e.1, -e.2) acc) f

/-- Bring an arbitrary entry list into canonical form. -/
def normalizeF (l : List (Element × Int)) : Formula :=
  l.foldl (fun acc e => addEntry e acc) []

/-- The water formula used for each condensation bond. -/
def H2O : Formula := [(['H'], 2), (['O'], 1)]

/-- Decimal digits of a natural number. -/
def natDigits (n : Nat) : Str := Nat.toDigits 10 n

/-- Decimal rendering of an integer count. -/
def intDigits (n : Int) : Str :=
  if n < 0 then '-' :: natDigits n.natAbs else natDigits n.toNat

/-- Modelled from the spec: canonical string rendering of a formula
(`EmpiricalFormula::toString`), element symbols in canonical order, each
followed by its count.  The rendering is injective on canonical formulas,
so keying the result maps by the `Formula` value itself is faithful to the
C++ maps keyed by `toString()`. -/
def fToStr (f : Formula) : Str :=
  f.foldl (fun acc e => acc ++ e.1 ++ intDigits e.2) []

/-- Strict order on formula entries. -/
def entryLtB (a b : Element × Int) : Bool :=
  strLtB a.1 b.1 || (a.1 = b.1 && a.2 < b.2)

/-- Lexicographic strict order on canonical formulas, standing in for the
`std::map` order on their canonical string renderings. -/
def fLtB : Formula → Formula → Bool
  | [], [] => false
  | [], _ :: _ => true
  | _ :: _, [] => false
  | a :: as, b :: bs => if entryLtB a b then true else if entryLtB b a then false else fLtB as bs

/-- Modelled from the spec: monoisotopic mass of an element (external
`ElementDB`), expressed exactly in units of a millionth of a dalton so that
mass arithmetic stays in ℤ (the generator only ever stores masses and
compares them for equality, so the fixed scaling is faithful). -/
def elemMass (e : Element) : Int :=
  if e = ['H'] then 1007825
  else if e = ['C'] then 12000000
  else if e = ['N'] then 14003074
  else if e = ['O'] then 15994915
  else if e = ['P'] then 30973762
  else if e = ['S'] then 31972071
  else 0

/-- Modelled from the spec: `EmpiricalFormula::getMonoWeight` (same scaled
units as `elemMass`). -/
def monoMass (f : Formula) : Int :=
  f.foldl (fun acc e => acc + e.2 * elemMass e.1) 0

/-- Digit-string to count, defaulting to 1 when no digits are given. -/
def parseCount (digs : Str) : Int :=
  if digs = [] then 1
  else Int.ofNat (digs.foldl (fun a d => a * 10 + (d.toNat - 48)) 0)

/-- Modelled from the spec: the Formula Algebra parser turning a chemical
formula string such as "C4H8S2O2" into its atom-count entries.  An element is
an upper-case letter followed by lower-case letters, with an optional decimal
count (default 1); other characters are skipped (the external library instead
raises a fatal error for them, which no claim exercises). -/
def parseFRawF : Nat → Str → List (Element × Int)
  | _, [] => []
  | 0, _ :: _ => []
  | fuel + 1, c :: rest =>
    if c.isUpper then
      (c :: rest.takeWhile Char.isLower,
        parseCount ((rest.dropWhile Char.isLower).takeWhile Char.isDigit)) ::
        parseFRawF fuel ((rest.dropWhile Char.isLower).dropWhile Char.isDigit)
    else parseFRawF fuel rest

/-- `EmpiricalFormula(String)` followed by `setCharge(0)`.  The scan fuel is
the input length, which the remaining input never exceeds, so the
fuel-exhausted case is unreachable. -/
def parseFormula (s : Str) : Formula := normalizeF (parseFRawF s.length s)

/-! ## String utilities of the OpenMS `String` class -/

/-- Worker for `strSplit`: scan the input, cutting at each occurrence of the
separator (the current field is accumulated in reverse); the fuel bounds the
number of consumed characters. -/
def splitGo (sep : Str) : Nat → Str → Str → List Str
  | _, cur, [] => [cur.reverse]
  | 0, cur, rest => [cur.reverse ++ rest]
  | fuel + 1, cur, c :: rest =>
    if sep.isPrefixOf (c :: rest) then
      cur.reverse :: splitGo sep fuel [] (rest.drop (sep.length - 1))
    else
      splitGo sep fuel (c :: cur) rest

/-- `String::split(sep, fields)`: an empty input yields no fields; otherwise
the string is cut at every occurrence of the separator (a string without the
separator yields itself as the single field).  The fuel is the input length,
which the remaining input never exceeds, so the fuel-exhausted case is
unreachable. -/
def strSplit (sep s : Str) : List Str :=
  if s = [] then [] else splitGo sep s.length [] s

/-- `String::substitute(char, char)`: replace every occurrence. -/
def chSub (a b : Char) (s : Str) : Str :=
  s.map (fun c => if c = a then b else c)

/-- Ascending character sort, as `std::sort` on a string. -/
def sortStr (s : Str) : Str := List.insertionSort (fun a b => a ≤ b) s

/-!  ## notInSeq (NuXLModificationsGenerator.cpp, lines 50-67) -/

/-- `NuXLModificationsGenerator::notInSeq`: an empty query is in every
sequence; otherwise every window of the query's length is compared to the
query after sorting both, and `false` (meaning: contained) is returned on the
first match.  The C++ loop bound `(Int)res_seq.size() - (Int)query.size()`
is signed, so a query longer than the sequence gives zero iterations. -/
def notInSeq (res_seq query : Str) : Bool :=
  if query = [] then false
  else
    !((List.range (res_seq.length + 1 - query.length)).any (fun l =>
      decide (sortStr ((res_seq.drop l).take query.length) = sortStr query)))

/-! ## generateTargetSequences (lines 526-581) -/

/-- The validity count computed after the position loop: one per position
whose symbol has no substitution entry, plus one per target equal to the
symbol otherwise. -/
def gtsValidCount (map_source2target : List (Char × List Char)) (res_seq : Str) : Nat :=
  res_seq.foldl (fun n c =>
    match alFind map_source2target c with
    | none => n + 1
    | some targets => n + targets.countP (fun t => t = c)) 0

/-- `NuXLModificationsGenerator::generateTargetSequences`: walk the sequence
position by position; at a position with substitution targets, recurse once
per target that differs from the current symbol (on a copy with that symbol
replaced); finally accept the unmodified sequence when every position is
either unmapped or its own valid target. -/
def gtsGo (map_source2target : List (Char × List Char)) :
    Nat → Str → Nat → List Str → List Str
  | fuel, res_seq, param_pos, target_sequences =>
    if h : param_pos < res_seq.length then
      match fuel with
      | 0 => target_sequences
      | fuel + 1 =>
        match alFind map_source2target (res_seq.get ⟨param_pos, h⟩) with
        | none => gtsGo map_source2target fuel res_seq (param_pos + 1) target_sequences
        | some targets =>
          let out2 := targets.foldl (fun o t =>
            if res_seq.get ⟨param_pos, h⟩ ≠ t then
              gtsGo map_source2target fuel (res_seq.set param_pos t) (param_pos + 1) o
            else o) target_sequences
          gtsGo map_source2target fuel res_seq (param_pos + 1) out2
    else
      if gtsValidCount map_source2target res_seq = res_seq.length
      then target_sequences ++ [res_seq]
      else target_sequences

/-- The recursion advances one position per step and replacing a character
keeps the length, so fuel `res_seq.length - param_pos` always suffices and
the fuel-exhausted case is unreachable. -/
def generateTargetSequences (res_seq : Str) (param_pos : Nat)
    (map_source2target : List (Char × List Char)) (target_sequences : List Str) :
    List Str :=
  gtsGo map_source2target (res_seq.length - param_pos) res_seq param_pos target_sequences

/-! ## Configuration parsing inside initModificationMassesNA -/

/-- Ordering of `char` keys in `std::map<char, _>`. -/
def charLtB (a b : Char) : Bool := a < b

/-- Lines 90-95: parse "nucleotide=empirical formula" strings; the unchecked
`fields[1]` access is out of bounds (modelled `none`) when the separator does
not occur. -/
def parseTargetsGo (acc : List (Str × Formula)) : List Str → Option (List (Str × Formula))
  | [] => some acc
  | s :: rest =>
    match strSplit ['='] s with
    | f0 :: f1 :: _ =>
      parseTargetsGo (alUpdate strLtB f0 [] (fun _ => parseFormula f1) acc) rest
    | _ => none

/-- The target-nucleotide map (`map_target_to_formula`). -/
def parseTargets (target_nucleotides : List Str) : Option (List (Str × Formula)) :=
  parseTargetsGo [] target_nucleotides

/-- Lines 99-104: parse "source->target" strings into `map_source_to_targets`;
`fields[0][0]` and `fields[1][0]` read the terminator on empty fields, and
`fields[1]` is out of bounds when "->" does not occur. -/
def parseMappingsGo (acc : List (Char × List Char)) : List Str → Option (List (Char × List Char))
  | [] => some acc
  | s :: rest =>
    match strSplit ['-', '>'] s with
    | f0 :: f1 :: _ =>
      parseMappingsGo (alUpdate charLtB (cppHead f0) [] (fun v => v ++ [cppHead f1]) acc) rest
    | _ => none

/-- The source-to-targets map. -/
def parseMappings (mappings : List Str) : Option (List (Char × List Char)) :=
  parseMappingsGo [] mappings

/-- Lines 107-111: the first character of every mapping string. -/
def sourceNucleotides (mappings : List Str) : List Char :=
  mappings.map cppHead

/-- Lines 125-138, one pass of the growth loop: prepend every source
nucleotide to every combination of the previous round (the state is the
accumulated `all_combinations` and the previous round's
`actual_combinations`). -/
def comboRound (sources : List Char) (st : List Str × List Str) : List Str × List Str :=
  let news := (sources.map (fun n => st.2.map (fun c => n :: c))).flatten
  (st.1 ++ news, news)

/-- Lines 119-138: start from the single source nucleotides and run the
growth loop `max_length - 1` times. -/
def comboState (sources : List Char) (max_length : Nat) : List Str × List Str :=
  (List.range (max_length - 1)).foldl (fun st _ => comboRound sources st)
    (sources.map (fun c => [c]), sources.map (fun c => [c]))

/-- Lines 113-144: when no restriction sequence is supplied, generate all
combinations of the source nucleotides of lengths 1 to `max_length` and
concatenate them into one string. -/
def autoRestriction (sources : List Char) (max_length : Nat) : Str :=
  (comboState sources max_length).1.flatten

/-- Lines 150-168: erase trivial identity rules, apply and erase pure renames
to the restriction sequence (in ascending key order), keep multi-target
entries.  A rule with no targets cannot arise (every entry is created with
one target), so the empty-target case is grouped with the multi-target one. -/
def eraseTrivial : List (Char × List Char) → Str → List (Char × List Char) × Str
  | [], r => ([], r)
  | (c, ts) :: rest, r =>
    match ts with
    | [t] =>
      if c = t then eraseTrivial rest r
      else eraseTrivial rest (chSub c t r)
    | _ =>
      let z := eraseTrivial rest r
      ((c, ts) :: z.1, z.2)

/-- A signed sub-formula of a modification spec ("H2O", subtractive?). -/
abbrev SubFormula := Formula × Bool

/-- One parsed modification: the list of its signed sub-formulas. -/
abbrev NtMod := List SubFormula

/-- `map_to_nucleotide_modifications`. -/
abbrev NtModsMap := List (Str × List NtMod)

/-- Lines 203-204: `substitute("-", "#-")` then `substitute("+", "#+")`. -/
def markSigns (s : Str) : Str :=
  s.foldr (fun c acc =>
    (if c = '-' then ['#', '-'] else if c = '+' then ['#', '+'] else [c]) ++ acc) []

/-- Lines 207-227: parse the '#'-separated tokens; empty tokens are skipped,
a leading sign fixes the subtractive flag and is removed (all its occurrences
are removed, as `String::remove` does), and the token is parsed as a formula
with neutral charge. -/
def parseSubFormulas (ems : List Str) : NtMod :=
  ems.foldl (fun acc em =>
    match em with
    | [] => acc
    | c :: _ =>
      if c = '-' then acc ++ [(parseFormula (em.filter (· != '-')), true)]
      else if c = '+' then acc ++ [(parseFormula (em.filter (· != '+')), false)]
      else acc ++ [(parseFormula em, false)]) []

/-- Lines 184-230 for one modification string: `m[1]` is undefined behaviour
on an empty string, reads the terminator (which is not ':') on a one-character
string, and must be ':' otherwise; the rest is split into signed
sub-formulas for target nucleotide `m[0]`. -/
def parseModification (m : Str) : Option (Except Unit (Str × NtMod)) :=
  match m with
  | [] => none
  | [_] => some (Except.error ())
  | a :: b :: rest =>
    if b = ':' then
      some (Except.ok ([a], parseSubFormulas (strSplit ['#'] (markSigns rest))))
    else some (Except.error ())

/-- The whole modifications loop, stopping at the first malformed spec
(`Exception::MissingInformation`, modelled as `Except.error ()`). -/
def parseModificationsGo (acc : NtModsMap) : List Str → Option (Except Unit NtModsMap)
  | [] => some (Except.ok acc)
  | m :: rest =>
    match parseModification m with
    | none => none
    | some (Except.error e) => some (Except.error e)
    | some (Except.ok p) =>
      parseModificationsGo (alUpdate strLtB p.1 [] (fun v => v ++ [p.2]) acc) rest

/-! ## Single-nucleotide modified formulas (lines 253-301) -/

/-- `result.mod_combinations`: canonical formula to set of nucleotide-style
strings (the C++ keys are the canonical renderings, which are injective
images of the formulas, so the formula itself keys the model). -/
abbrev ModsMap := List (Formula × List Str)

/-- Lines 268-287: apply one modification to a nucleotide's base formula,
accumulating the sum formula and the nucleotide-style string with its
'+'/'-' suffixes in application order. -/
def applyNtMod (nt : Str) (ntF : Formula) (nm : NtMod) : Formula × Str :=
  nm.foldl (fun acc sf =>
    if sf.2 then (fSub acc.1 sf.1, acc.2 ++ '-' :: fToStr sf.1)
    else (fAdd acc.1 sf.1, acc.2 ++ '+' :: fToStr sf.1)) (ntF, nt)

/-- Lines 257-301 for one target nucleotide: for every modification listed
for it, push the modified formula and record its nucleotide-style string.
The C++ declares a per-nucleotide set `formulas_of_modified_nucleotide` and
tests membership before pushing, but never inserts into it, so the
skip-duplicate branch is dead; the model keeps the (always empty) set. -/
def stage1Step (ntmods : NtModsMap) (st : List Formula × ModsMap) (p : Str × Formula) :
    List Formula × ModsMap :=
  let nt_mods := alGetD ntmods p.1 []
  let formulas_of_modified_nucleotide : List Str := []
  nt_mods.foldl (fun st nm =>
    let r := applyNtMod p.1 p.2 nm
    if fToStr r.1 ∈ formulas_of_modified_nucleotide then st
    else (st.1 ++ [r.1], alUpdate fLtB r.1 [] (setInsert strLtB r.2) st.2)) st

/-- The whole single-nucleotide stage: iterate `map_target_to_formula` in key
order, producing `actual_combinations` and the first `mod_combinations`. -/
def stage1 (tmap : List (Str × Formula)) (ntmods : NtModsMap) :
    List Formula × ModsMap :=
  tmap.foldl (stage1Step ntmods) ([], [])

/-! ## Chain extension (lines 303-335) -/

/-- State of the chain-extension loop: the previous round's combinations,
the accumulated `all_combinations`, and `mod_combinations`. -/
structure ChainState where
  actual : List Formula
  all : List Formula
  mods : ModsMap
deriving DecidableEq, Repr

/-- Line 321-325: record the new formula's inherited ambiguity strings, the
new nucleotide symbol prepended to each. -/
def chainInsert (nt : Str) (f : Formula) (ambs : List Str) (m : ModsMap) : ModsMap :=
  ambs.foldl (fun m s => alUpdate fLtB f [] (setInsert strLtB (nt ++ s)) m) m

/-- Lines 316-326 for one (nucleotide, previous combination) pair: the
condensation product `ntF + ac - H2O` is appended to the new and the overall
combination lists; `mod_combinations[ac]` is read through `operator[]`
(which creates an empty entry when absent) and its strings are inherited. -/
def chainStep (nt : Str) (ntF : Formula) (st : List Formula × List Formula × ModsMap)
    (ac : Formula) : List Formula × List Formula × ModsMap :=
  let f := fSub (fAdd ntF ac) H2O
  let m1 := alUpdate fLtB ac [] id st.2.2
  let ambs := alGetD m1 ac []
  (st.1 ++ [f], st.2.1 ++ [f], chainInsert nt f ambs m1)

/-- One round of the chain-extension loop (lines 308-329): every unmodified
target nucleotide is prepended to every combination of the previous round. -/
def chainRound (tmap : List (Str × Formula)) (st : ChainState) : ChainState :=
  let z := tmap.foldl (fun z p => st.actual.foldl (chainStep p.1 p.2) z)
    (([] : List Formula), st.all, st.mods)
  { actual := z.1, all := z.2.1, mods := z.2.2 }

/-- Lines 308-329: the chain-extension loop runs `chainRound` exactly
`max_length - 1` times (the C++ loop `for (Int i = 0; i < max_length - 1)`,
with truncation at zero for `max_length` below one). -/
def chainStage (tmap : List (Str × Formula)) (max_length : Nat) (st : ChainState) :
    ChainState :=
  (fun x => chainRound tmap x)^[max_length - 1] st

/-- `result.formula2mass`. -/
abbrev F2M := List (Formula × Int)

/-- Lines 331-334: assign every accumulated combination its monoisotopic
weight. -/
def buildF2M (all : List Formula) : F2M :=
  all.foldl (fun m f => alUpdate fLtB f 0 (fun _ => monoMass f) m) []

/-! ## Restriction filter (lines 337-450) -/

/-- Lines 357-369: strip the modification suffix (everything from the first
'-' or '+' onward) and sort the remaining nucleotide composition. -/
def stripSort (s : Str) : Str :=
  sortStr (s.takeWhile (fun c => !(c == '-') && !(c == '+')))

/-- Lines 373-374: number of lower-case characters. -/
def countLower (s : Str) : Nat := s.countP Char.isLower

/-- Lines 383-384: does the composition contain a cross-linkable symbol? -/
def hasXl (can_xl : List Char) (s : Str) : Bool := s.any (fun c => can_xl.contains c)

/-- Lines 400-404: in how many nucleotide groups does the composition hit a
character? -/
def groupsHit (nt_groups : List Str) (comp : Str) : Nat :=
  nt_groups.countP (fun g => comp.any (fun c => g.contains c))

/-- Lines 413-420: the composition is counted as violating containment when
`notInSeq` holds against every target sequence. -/
def containViolated (target_sequences : List Str) (comp : Str) : Bool :=
  (target_sequences.countP (fun t => notInSeq t comp)) == target_sequences.length

/-- The collected (chemical formula, nucleotide-style string) pairs that
violate a restriction. -/
abbrev Violations := List (Formula × Str)

/-- `unique_nucleotide_and_mod_composition`. -/
abbrev UniqList := List (Str × Int)

/-- The configuration the restriction filter closes over. -/
structure FilterParams where
  can_xl : List Char
  nt_groups : List Str
  max_length : Nat
  target_sequences : List Str
deriving DecidableEq, Repr

/-- Lines 355-439 for one (formula, ambiguity string) pair: the four early
checks (two or more lower-case symbols, no cross-linkable symbol, composition
longer than `max_length`, more than one nucleotide group) reject and skip the
rest; then a containment violation rejects WITHOUT skipping, the dedup check
rejects when the (sorted composition, mass) pair was already recorded, and
the pair is recorded unconditionally at the end (exactly as the C++ does:
the two last checks have no `continue`). -/
def pairStep (P : FilterParams) (formula : Formula) (mass : Int) (s : Str)
    (vu : Violations × UniqList) : Violations × UniqList :=
  let comp := stripSort s
  if 2 ≤ countLower comp then (vu.1 ++ [(formula, s)], vu.2)
  else if !hasXl P.can_xl comp then (vu.1 ++ [(formula, s)], vu.2)
  else if P.max_length < comp.length then (vu.1 ++ [(formula, s)], vu.2)
  else if 1 < groupsHit P.nt_groups comp then (vu.1 ++ [(formula, s)], vu.2)
  else
    let v1 := if containViolated P.target_sequences comp then vu.1 ++ [(formula, s)] else vu.1
    let v2 := if (comp, mass) ∈ vu.2 then v1 ++ [(formula, s)] else v1
    (v2, vu.2 ++ [(comp, mass)])

/-- Lines 351-355 for one `formula2mass` entry: `mod_combinations[formula]`
is read through `operator[]` (creating an empty entry when absent) and each
of its strings goes through `pairStep`. -/
def filterKey (P : FilterParams) (st : ModsMap × (Violations × UniqList)) (km : Formula × Int) :
    ModsMap × (Violations × UniqList) :=
  let mods1 := alUpdate fLtB km.1 [] id st.1
  let ambs := alGetD mods1 km.1 []
  (mods1, ambs.foldl (fun vu s => pairStep P km.1 km.2 s vu) st.2)

/-- The whole restriction-filter loop: iterate `formula2mass` in key order,
returning the (possibly entry-extended) `mod_combinations` and the violation
list. -/
def filterLoop (P : FilterParams) (f2m : F2M) (mods : ModsMap) : ModsMap × Violations :=
  let st := f2m.foldl (filterKey P) (mods, ([], []))
  (st.1, st.2.1)

/-- Lines 442-450: erase each violating string from its formula's set. -/
def eraseViolations (mods : ModsMap) (viol : Violations) : ModsMap :=
  viol.foldl (fun m p => alUpdate fLtB p.1 [] (fun v => v.erase p.2) m) mods

/-- Lines 452-464: remove every formula whose ambiguity set became empty
from both maps. -/
def eraseEmptyKeys (f2m : F2M) (mods : ModsMap) : F2M × ModsMap :=
  (mods.foldl (fun fm p => if p.2.isEmpty then alErase p.1 fm else fm) f2m,
   mods.filter (fun p => !p.2.isEmpty))

/-! ## Result assembly (lines 79-85, 466-471) -/

/-- The literal display label of the fixed cysteine (DTT) adduct. -/
def cysteine_adduct_string : Str := ['C', '4', 'H', '8', 'S', '2', 'O', '2']

/-- Line 83: the fixed cysteine adduct formula. -/
def cysteine_adduct_formula : Formula := parseFormula cysteine_adduct_string

/-- The returned result: the two maps keyed by canonical formula. -/
structure NuXLModificationMassesResult where
  formula2mass : F2M
  mod_combinations : ModsMap
deriving DecidableEq, Repr

/-- Everything `initModificationMassesNA` computes before the restriction
filter: the assembled `formula2mass`, `mod_combinations` and the filter
configuration (cross-linkable set, groups, maximum length, expanded target
sequences). -/
structure PreFilter where
  f2m : F2M
  mods : ModsMap
  params : FilterParams
deriving DecidableEq, Repr

/-- Lines 232-335 given the parsed configuration: expand the target
sequences from the (erased) substitution map and rewritten restriction,
build the single-nucleotide combinations, chain-extend them `max_length - 1`
times, and assign masses. -/
def assemblePreFilter (tmap : List (Str × Formula))
    (z : List (Char × List Char) × Str) (ntmods : NtModsMap)
    (nt_groups : List Str) (can_xl : List Char) (max_length : Nat) : PreFilter :=
  let target_sequences := generateTargetSequences z.2 0 z.1 []
  let s1 := stage1 tmap ntmods
  let st := chainStage tmap max_length ⟨s1.1, s1.1, s1.2⟩
  ⟨buildF2M st.all, st.mods, ⟨can_xl, nt_groups, max_length, target_sequences⟩⟩

/-- Lines 79-335 of `initModificationMassesNA`: parse the configuration
(crashing on out-of-bounds accesses, failing on a malformed modification
spec), auto-generate and rewrite the restriction sequence, and assemble the
pre-filter state. -/
def preFilterState (target_nucleotides nt_groups : List Str) (can_xl : List Char)
    (mappings modifications : List Str) (sequence_restriction : Str)
    (max_length : Nat) : Option (Except Unit PreFilter) :=
  match parseTargets target_nucleotides with
  | none => none
  | some tmap =>
    match parseMappings mappings with
    | none => none
    | some smap0 =>
      let sources := sourceNucleotides mappings
      let restriction1 :=
        if sequence_restriction = [] then autoRestriction sources max_length
        else sequence_restriction
      let z := eraseTrivial smap0 restriction1
      match parseModificationsGo [] modifications with
      | none => none
      | some (Except.error e) => some (Except.error e)
      | some (Except.ok ntmods) =>
        some (Except.ok
          (assemblePreFilter tmap z ntmods nt_groups can_xl max_length))

/-- Lines 337-464: run the restriction filter and the synchronized erase of
emptied keys. -/
def applyFilters (pf : PreFilter) : NuXLModificationMassesResult :=
  let z := filterLoop pf.params pf.f2m pf.mods
  let mods2 := eraseViolations z.1 z.2
  let z2 := eraseEmptyKeys pf.f2m mods2
  ⟨z2.1, z2.2⟩

/-- Lines 466-471: optionally add the fixed cysteine adduct to both maps,
after all filtering. -/
def addCysteine (cysteine_adduct : Bool) (r : NuXLModificationMassesResult) :
    NuXLModificationMassesResult :=
  if cysteine_adduct then
    ⟨alUpdate fLtB cysteine_adduct_formula 0
        (fun _ => monoMass cysteine_adduct_formula) r.formula2mass,
      alUpdate fLtB cysteine_adduct_formula []
        (setInsert strLtB cysteine_adduct_string) r.mod_combinations⟩
  else r

/-- `NuXLModificationsGenerator::initModificationMassesNA` (lines 70-523):
`none` models undefined behaviour (out-of-bounds access), `some (error ())`
the `MissingInformation` exception, `some (ok r)` a normal return. -/
def initModificationMassesNA (target_nucleotides nt_groups : List Str) (can_xl : List Char)
    (mappings modifications : List Str) (sequence_restriction : Str)
    (cysteine_adduct : Bool) (max_length : Nat) :
    Option (Except Unit NuXLModificationMassesResult) :=
  match preFilterState target_nucleotides nt_groups can_xl mappings modifications
      sequence_restriction max_length with
  | none => none
  | some (Except.error e) => some (Except.error e)
  | some (Except.ok pf) =>
    some (Except.ok (addCysteine cysteine_adduct (applyFilters pf)))

deriving instance DecidableEq for Except

/-- Target nucleotides of the C1 scenario ("A=C3H5", "U=C2H4O"). -/
def c1TargetNucleotides : List Str :=
  [['A', '=', 'C', '3', 'H', '5'], ['U', '=', 'C', '2', 'H', '4', 'O']]

/-- The base formula of A in the C1 scenario. -/
def c1FormulaA : Formula := parseFormula ['C', '3', 'H', '5']

/-- The base formula of U in the C1 scenario. -/
def c1FormulaU : Formula := parseFormula ['C', '2', 'H', '4', 'O']

/-- The AU/UA condensation product formula_A + formula_U - H2O. -/
def c1CondAU : Formula := fSub (fAdd c1FormulaA c1FormulaU) H2O

/-- The growth loop as an iteration of `comboRound`. -/
def comboIter (sources : List Char) (n : Nat) : List Str × List Str :=
  (fun st => comboRound sources st)^[n]
    (sources.map (fun c => [c]), sources.map (fun c => [c]))

/-- The four early filters (lines 373-410) as one test: fewer than two
lower-case symbols, a cross-linkable symbol present, composition length
within `max_length`, at most one nucleotide group hit.  A pair reaches the
containment, deduplication and recording stage exactly when this passes. -/
def pairEarlyPass (P : FilterParams) (s : Str) : Bool :=
  decide (countLower (stripSort s) < 2) && hasXl P.can_xl (stripSort s) &&
    decide ((stripSort s).length ≤ P.max_length) &&
    decide (groupsHit P.nt_groups (stripSort s) ≤ 1)

/-- The containment test of filter 6 applied to a pair's string. -/
def pairContViol (P : FilterParams) (s : Str) : Bool :=
  containViolated P.target_sequences (stripSort s)

/-- The inner filter fold over an explicit list of
(formula, mass, ambiguity string) pairs. -/
def runPairs (P : FilterParams) (ps : List (Formula × Int × Str))
    (vu : Violations × UniqList) : Violations × UniqList :=
  ps.foldl (fun vu p => pairStep P p.1 p.2.1 p.2.2 vu) vu

/-- The (formula, mass, ambiguity string) pairs the filter loop visits, in
iteration order. -/
def pairList (f2m : F2M) (mods : ModsMap) : List (Formula × Int × Str) :=
  (f2m.map (fun km => (alGetD mods km.1 []).map (fun s => (km.1, km.2, s)))).flatten

/-- The `operator[]` reads of line 354 ensure an entry for every
`formula2mass` key. -/
def ensureKeys (f2m : F2M) (mods : ModsMap) : ModsMap :=
  f2m.foldl (fun m km => alUpdate fLtB km.1 [] id m) mods

/-- The `i`-th visited pair (with a junk default out of range). -/
def pairAt (ps : List (Formula × Int × Str)) (i : Nat) : Formula × Int × Str :=
  ps.getD i ([], 0, [])

/-- Pair `i` is rejected by the deduplication rule (filter 7): it reaches
the dedup check (early filters pass) and its (sorted composition, mass)
pair is already in `unique_nucleotide_and_mod_composition` — the list of
pairs recorded while processing the earlier pairs. -/
def dedupRejects (P : FilterParams) (ps : List (Formula × Int × Str)) (i : Nat) :
    Prop :=
  pairEarlyPass P (pairAt ps i).2.2 = true ∧
    (stripSort (pairAt ps i).2.2, (pairAt ps i).2.1) ∈
      (runPairs P (ps.take i) ([], [])).2

/-- Pair `i` passes all seven filters (is "accepted"). -/
def fullPass (P : FilterParams) (ps : List (Formula × Int × Str)) (i : Nat) :
    Prop :=
  pairEarlyPass P (pairAt ps i).2.2 = true ∧
    pairContViol P (pairAt ps i).2.2 = false ∧
    ¬dedupRejects P ps i

/-- The pre-filter state of the C4 scenario: nucleotides A and U with empty
modification specs, cross-linkable setU, restriction sequence "U",
maximum length 2 (so the AU formula carries the two ambiguity strings "AU"
and "UA", whose shared composition fails containment against "U"). -/
def c4Pre : Option (Except Unit PreFilter) :=
  preFilterState c1TargetNucleotides [] ['U'] [] [['A', ':'], ['U', ':']]
    ['U'] 2

/-- Total extractor of a normally returned pre-filter state. -/
def pfOf (o : Option (Except Unit PreFilter)) : PreFilter :=
  match o with
  | some (Except.ok pf) => pf
  | _ => ⟨[], [], ⟨[], [], 0, []⟩⟩

/-- The concrete pre-filter state of the C4 scenario. -/
def c4PF : PreFilter := pfOf c4Pre

/-- The pairs the C4 scenario's filter loop visits. -/
def c4Pairs : List (Formula × Int × Str) := pairList c4PF.f2m c4PF.mods

/-- The invariant carried through the combination-generation stages: every
`mod_combinations` key is an accumulated combination, every previous-round
combination is accumulated, keys are distinct and every ambiguity set is
duplicate-free. -/
def chainInv (st : ChainState) : Prop :=
  (∀ k, k ∈ alKeys st.mods → k ∈ st.all) ∧
  (∀ a ∈ st.actual, a ∈ st.all) ∧
  (alKeys st.mods).Nodup ∧
  (∀ p ∈ st.mods, (p.2 : List Str).Nodup)

/-- The concrete result of the C1 scenario run with the cysteine adduct
enabled. -/
def c2CysResult : NuXLModificationMassesResult :=
  ⟨[(c1FormulaU, monoMass c1FormulaU),
    (cysteine_adduct_formula, monoMass cysteine_adduct_formula),
    (c1CondAU, monoMass c1CondAU)],
   [(c1FormulaU, [['U']]),
    (cysteine_adduct_formula, [cysteine_adduct_string]),
    (c1CondAU, [['A', 'U']])]⟩

/-- The concrete pre-filter state of the C1 scenario (no cysteine flag in
`preFilterState`). -/
def c2PF : PreFilter :=
  pfOf (preFilterState c1TargetNucleotides [] ['U'] []
    [['A', ':'], ['U', ':']] ['A', 'U'] 2)

/-- The result of the C8 counterexample run with the trivial rule added. -/
def c8Run2 : NuXLModificationMassesResult :=
  ⟨[([(['C'], 3), (['H'], 5)], 41039125),
    ([(['C'], 6), (['H'], 8), (['O'], -1)], 64067685)],
   [([(['C'], 3), (['H'], 5)], [['A']]),
    ([(['C'], 6), (['H'], 8), (['O'], -1)], [['A', 'A']])]⟩

/-! ## General helper lemmas -/

/-- Two strings have the same character sort exactly when they are anagrams
of each other. -/
theorem sortStr_eq_iff (a b : Str) : sortStr a = sortStr b ↔ a.Perm b := by
  constructor
  · intro h
    have ha : a.Perm (sortStr a) := (List.perm_insertionSort _ a).symm
    rw [h] at ha
    exact ha.trans (List.perm_insertionSort _ b)
  · intro h
    exact List.eq_of_perm_of_sorted
      (((List.perm_insertionSort _ a).trans h).trans
        (List.perm_insertionSort _ b).symm)
      (List.sorted_insertionSort _ a) (List.sorted_insertionSort _ b)

/-- A property preserved by every step of a left fold holds of its result. -/
theorem foldl_inv {α β : Type} (P : β → Prop) (step : β → α → β) (l : List α)
    (init : β) (h0 : P init) (hs : ∀ b a, a ∈ l → P b → P (step b a)) :
    P (l.foldl step init) := by
  induction l generalizing init with
  | nil => exact h0
  | cons a r ih =>
    exact ih (step init a) (hs init a (List.mem_cons_self a r) h0)
      (fun b x hx => hs b x (List.mem_cons_of_mem a hx))

/-- `notInSeq` on a non-empty query is `false` exactly when some contiguous
window of the query's length is an anagram of the query. -/
theorem notInSeq_false_iff (res_seq query : Str) (hq : query ≠ []) :
    notInSeq res_seq query = false ↔
      ∃ l, l + query.length ≤ res_seq.length ∧
        ((res_seq.drop l).take query.length).Perm query := by
  have hql : 0 < query.length := List.length_pos.mpr hq
  have key : notInSeq res_seq query = false ↔
      ∃ l, l < res_seq.length + 1 - query.length ∧
        sortStr ((res_seq.drop l).take query.length) = sortStr query := by
    simp [notInSeq, hq]
  rw [key]
  simp only [sortStr_eq_iff]
  constructor
  · rintro ⟨l, hl, hp⟩
    exact ⟨l, by omega, hp⟩
  · rintro ⟨l, hl, hp⟩
    exact ⟨l, by omega, hp⟩

/-! ## Claim C5 -/

/-- Claim C5: `notInSeq res_seq query` is `false` exactly when the query is
empty or some contiguous window of `res_seq` of the query's length is an
anagram of the query; in particular it returns `true` whenever the query is
non-empty and longer than `res_seq` (so containment is decided by per-window
anagram comparison, never by exact ordered substring matching). -/
theorem c5_notInSeq_anagram_window (res_seq query : Str) :
    (notInSeq res_seq query = false ↔
      query = [] ∨ ∃ l, l + query.length ≤ res_seq.length ∧
        ((res_seq.drop l).take query.length).Perm query) ∧
    (query ≠ [] → res_seq.length < query.length → notInSeq res_seq query = true) := by
  constructor
  · by_cases hq : query = []
    · subst hq; simp [notInSeq]
    · rw [notInSeq_false_iff res_seq query hq]
      constructor
      · exact fun h => Or.inr h
      · rintro (hq2 | h)
        · exact absurd hq2 hq
        · exact h
  · intro hq hlen
    have hql : 0 < query.length := List.length_pos.mpr hq
    have h0 : res_seq.length + 1 - query.length = 0 := by omega
    simp [notInSeq, hq, h0]

/-- Witness for C5 at concrete inputs: "UA" is (anagram-)contained in "AU",
and a two-character query is not contained in a one-character sequence. -/
theorem c5_notInSeq_anagram_window_witness :
    notInSeq ['A', 'U'] ['U', 'A'] = false ∧ notInSeq ['A'] ['U', 'A'] = true :=
  ⟨(c5_notInSeq_anagram_window ['A', 'U'] ['U', 'A']).1.mpr
      (Or.inr ⟨0, by decide, by decide⟩),
    (c5_notInSeq_anagram_window ['A'] ['U', 'A']).2 (by decide) (by decide)⟩

/-! ## Claim C1

The claimed scenario: symbols A and U with their base formulas, cross-link
set containing only U, maximum length 2, no modification specs, no
substitution rules, restriction sequence "AU". -/

/-- Claim C1 counterexample: in the claimed scenario WITHOUT modification
specs, the generation loop for single-nucleotide combinations iterates over
the (empty) modification list of each nucleotide, so no combination at all
is produced — the returned result is empty, and in particular contains
neither the U formula nor the AU/UA condensation formula.  There is no
implicit "no modification" case. -/
theorem c1_no_mods_empty_result :
    initModificationMassesNA c1TargetNucleotides [] ['U'] [] [] ['A', 'U'] false 2 =
      some (Except.ok ⟨[], []⟩) := by decide

/-- Claim C1 (amended): the unmodified-base combination arises exactly from
an explicit empty modification spec such as "A:"; with the specs "A:", "U:"
added to the scenario, the result contains the formula of U and the AU/UA
condensation product with mass formula_A + formula_U - H2O (recorded under
the ambiguity string "AU"), while the pure-A formula is rejected as not
cross-linkable. -/
theorem c1_explicit_empty_spec_scenario :
    initModificationMassesNA c1TargetNucleotides [] ['U'] []
        [['A', ':'], ['U', ':']] ['A', 'U'] false 2 =
      some (Except.ok
        ⟨[(c1FormulaU, monoMass c1FormulaU), (c1CondAU, monoMass c1CondAU)],
          [(c1FormulaU, [['U']]), (c1CondAU, [['A', 'U']])]⟩) ∧
    c1FormulaA ∉ [c1FormulaU, c1CondAU] := by decide

/-! ## Parse-stage lemmas for C7 and C9 -/

/-- The second character of a string of length at least two. -/
theorem cppAt_one_cons_cons (a b : Char) (r : Str) : cppAt (a :: b :: r) 1 = some b := by
  simp [cppAt]

/-- Reading index 1 of a one-character string yields the null terminator. -/
theorem cppAt_one_single (a : Char) : cppAt [a] 1 = some nulChar := by
  simp [cppAt]

/-- A non-empty modification string parses to a spec exactly when its second
character (in the C++ sense, the terminator for one-character strings) is
':'; otherwise it raises the `MissingInformation` error. -/
theorem parseModification_spec (m : Str) (h : m ≠ []) :
    (cppAt m 1 = some ':' → ∃ p, parseModification m = some (Except.ok p)) ∧
    (cppAt m 1 ≠ some ':' → parseModification m = some (Except.error ())) := by
  match m with
  | [] => exact absurd rfl h
  | [a] =>
    refine ⟨fun hc => ?_, fun _ => rfl⟩
    rw [cppAt_one_single] at hc
    exact absurd (Option.some.inj hc) (by decide)
  | a :: b :: r =>
    rw [cppAt_one_cons_cons]
    by_cases hb : b = ':'
    · subst hb
      exact ⟨fun _ => ⟨_, rfl⟩, fun hc => absurd rfl hc⟩
    · refine ⟨fun hc => absurd (Option.some.inj hc) hb, fun _ => ?_⟩
      simp [parseModification, hb]

/-- When every modification string is non-empty and some second character is
not ':', the modifications loop raises the error. -/
theorem parseModsGo_error (ms : List Str) :
    ∀ acc, (∀ m ∈ ms, m ≠ []) → (∃ m ∈ ms, cppAt m 1 ≠ some ':') →
      parseModificationsGo acc ms = some (Except.error ()) := by
  induction ms with
  | nil =>
    intro acc _ hbad
    obtain ⟨m, hm, _⟩ := hbad
    exact absurd hm (List.not_mem_nil m)
  | cons m rest ih =>
    intro acc hne hbad
    have hmne : m ≠ [] := hne m (List.mem_cons_self m rest)
    by_cases hm : cppAt m 1 = some ':'
    · obtain ⟨p, hp⟩ := (parseModification_spec m hmne).1 hm
      have hrest : ∃ x ∈ rest, cppAt x 1 ≠ some ':' := by
        obtain ⟨x, hx, hxne⟩ := hbad
        rcases List.mem_cons.mp hx with rfl | hx2
        · exact absurd hm hxne
        · exact ⟨x, hx2, hxne⟩
      simp only [parseModificationsGo, hp]
      exact ih _ (fun x hx => hne x (List.mem_cons_of_mem m hx)) hrest
    · have hp := (parseModification_spec m hmne).2 hm
      simp [parseModificationsGo, hp]

/-- When every modification string has ':' as its second character, the
modifications loop succeeds. -/
theorem parseModsGo_ok (ms : List Str) :
    ∀ acc, (∀ m ∈ ms, cppAt m 1 = some ':') →
      ∃ out, parseModificationsGo acc ms = some (Except.ok out) := by
  induction ms with
  | nil => exact fun acc _ => ⟨acc, rfl⟩
  | cons m rest ih =>
    intro acc hgood
    have hm := hgood m (List.mem_cons_self m rest)
    have hmne : m ≠ [] := by
      intro he
      subst he
      simp [cppAt] at hm
    obtain ⟨p, hp⟩ := (parseModification_spec m hmne).1 hm
    obtain ⟨out, hout⟩ := ih (alUpdate strLtB p.1 [] (fun v => v ++ [p.2]) acc)
      (fun x hx => hgood x (List.mem_cons_of_mem m hx))
    exact ⟨out, by simp only [parseModificationsGo, hp]; exact hout⟩

/-- The target-nucleotide parser succeeds exactly when every input string
splits on '=' into at least two fields. -/
theorem parseTargetsGo_some_iff (l : List Str) :
    ∀ acc, (∃ out, parseTargetsGo acc l = some out) ↔
      ∀ s ∈ l, 2 ≤ (strSplit ['='] s).length := by
  induction l with
  | nil => exact fun acc => ⟨fun _ s hs => absurd hs (List.not_mem_nil s), fun _ => ⟨acc, rfl⟩⟩
  | cons s rest ih =>
    intro acc
    constructor
    · intro hout x hx
      rcases List.mem_cons.mp hx with rfl | hx2
      · by_contra hlen
        match hsp : strSplit ['='] x with
        | [] => rw [parseTargetsGo, hsp] at hout; exact absurd hout (by simp)
        | [f] => rw [parseTargetsGo, hsp] at hout; exact absurd hout (by simp)
        | f0 :: f1 :: r => rw [hsp] at hlen; simp at hlen
      · match hsp : strSplit ['='] s with
        | [] => rw [parseTargetsGo, hsp] at hout; exact absurd hout (by simp)
        | [f] => rw [parseTargetsGo, hsp] at hout; exact absurd hout (by simp)
        | f0 :: f1 :: r =>
          rw [parseTargetsGo, hsp] at hout
          exact (ih _).mp hout x hx2
    · intro hall
      have hs := hall s (List.mem_cons_self s rest)
      match hsp : strSplit ['='] s with
      | [] => rw [hsp] at hs; simp at hs
      | [f] => rw [hsp] at hs; simp at hs
      | f0 :: f1 :: r =>
        rw [parseTargetsGo, hsp]
        exact (ih _).mpr (fun x hx => hall x (List.mem_cons_of_mem s hx))

/-- The mapping parser succeeds exactly when every input string splits on
"->" into at least two fields. -/
theorem parseMappingsGo_some_iff (l : List Str) :
    ∀ acc, (∃ out, parseMappingsGo acc l = some out) ↔
      ∀ s ∈ l, 2 ≤ (strSplit ['-', '>'] s).length := by
  induction l with
  | nil => exact fun acc => ⟨fun _ s hs => absurd hs (List.not_mem_nil s), fun _ => ⟨acc, rfl⟩⟩
  | cons s rest ih =>
    intro acc
    constructor
    · intro hout x hx
      rcases List.mem_cons.mp hx with rfl | hx2
      · by_contra hlen
        match hsp : strSplit ['-', '>'] x with
        | [] => rw [parseMappingsGo, hsp] at hout; exact absurd hout (by simp)
        | [f] => rw [parseMappingsGo, hsp] at hout; exact absurd hout (by simp)
        | f0 :: f1 :: r => rw [hsp] at hlen; simp at hlen
      · match hsp : strSplit ['-', '>'] s with
        | [] => rw [parseMappingsGo, hsp] at hout; exact absurd hout (by simp)
        | [f] => rw [parseMappingsGo, hsp] at hout; exact absurd hout (by simp)
        | f0 :: f1 :: r =>
          rw [parseMappingsGo, hsp] at hout
          exact (ih _).mp hout x hx2
    · intro hall
      have hs := hall s (List.mem_cons_self s rest)
      match hsp : strSplit ['-', '>'] s with
      | [] => rw [hsp] at hs; simp at hs
      | [f] => rw [hsp] at hs; simp at hs
      | f0 :: f1 :: r =>
        rw [parseMappingsGo, hsp]
        exact (ih _).mpr (fun x hx => hall x (List.mem_cons_of_mem s hx))

/-! ## Claim C7 -/

/-- Claim C7: when the earlier parse stages are well-formed (so the
modification loop is reached at all) and every modification string is
non-empty (so reading its second character is defined), the run raises the
fatal `MissingInformation` error — aborting with no partial result — exactly
when some modification string's second character is not ':'; conversely when
every second character is ':' the run returns a normal result, the spec
parser raising no error. -/
theorem c7_missing_colon_fatal
    (target_nucleotides nt_groups : List Str) (can_xl : List Char)
    (mappings modifications : List Str) (sequence_restriction : Str)
    (cysteine_adduct : Bool) (max_length : Nat)
    (htn : (parseTargets target_nucleotides).isSome)
    (hmp : (parseMappings mappings).isSome)
    (hne : ∀ m ∈ modifications, m ≠ []) :
    (initModificationMassesNA target_nucleotides nt_groups can_xl mappings
        modifications sequence_restriction cysteine_adduct max_length =
        some (Except.error ()) ↔
      ∃ m ∈ modifications, cppAt m 1 ≠ some ':') ∧
    ((∀ m ∈ modifications, cppAt m 1 = some ':') →
      ∃ r, initModificationMassesNA target_nucleotides nt_groups can_xl mappings
        modifications sequence_restriction cysteine_adduct max_length =
        some (Except.ok r)) := by
  obtain ⟨tmap, htm⟩ := Option.isSome_iff_exists.mp htn
  obtain ⟨smap, hsm⟩ := Option.isSome_iff_exists.mp hmp
  have hok : ∀ (h : ∀ m ∈ modifications, cppAt m 1 = some ':'),
      ∃ r, initModificationMassesNA target_nucleotides nt_groups can_xl mappings
        modifications sequence_restriction cysteine_adduct max_length =
        some (Except.ok r) := by
    intro hall
    obtain ⟨out, hout⟩ := parseModsGo_ok modifications [] hall
    have hpre : ∃ pf, preFilterState target_nucleotides nt_groups can_xl mappings
        modifications sequence_restriction max_length = some (Except.ok pf) := by
      simp only [preFilterState, htm, hsm, hout]
      exact ⟨_, rfl⟩
    obtain ⟨pf, hpre⟩ := hpre
    have heq : initModificationMassesNA target_nucleotides nt_groups can_xl mappings
        modifications sequence_restriction cysteine_adduct max_length =
        some (Except.ok (addCysteine cysteine_adduct (applyFilters pf))) := by
      simp only [initModificationMassesNA, hpre]
    exact ⟨_, heq⟩
  constructor
  · constructor
    · intro herr
      by_cases hall : ∀ m ∈ modifications, cppAt m 1 = some ':'
      · obtain ⟨r, hr⟩ := hok hall
        rw [hr] at herr
        exact absurd herr (by simp)
      · push_neg at hall
        exact hall
    · intro hbad
      have hout := parseModsGo_error modifications [] hne hbad
      have hpre : preFilterState target_nucleotides nt_groups can_xl mappings
          modifications sequence_restriction max_length = some (Except.error ()) := by
        simp only [preFilterState, htm, hsm, hout]
      simp only [initModificationMassesNA, hpre]
  · exact hok

/-- Witness for C7: a modification spec "UX" (no ':' in second position)
aborts the concrete C1 configuration with the fatal error. -/
theorem c7_missing_colon_fatal_witness :
    initModificationMassesNA c1TargetNucleotides [] ['U'] [] [['U', 'X']]
      ['A', 'U'] false 2 = some (Except.error ()) :=
  (c7_missing_colon_fatal c1TargetNucleotides [] ['U'] [] [['U', 'X']]
    ['A', 'U'] false 2 (by decide) (by decide)
    (by decide)).1.mpr ⟨['U', 'X'], by decide, by decide⟩

/-! ## Claim C9 -/

/-- Parsing a non-empty modification string never reads out of bounds. -/
theorem parseModification_ne_none (m : Str) (h : m ≠ []) :
    parseModification m ≠ none := by
  match m with
  | [] => exact absurd rfl h
  | [a] => simp [parseModification]
  | a :: b :: r =>
    by_cases hb : b = ':' <;> simp [parseModification, hb]

/-- The modifications loop never reads out of bounds when every modification
string is non-empty. -/
theorem parseModsGo_ne_none (ms : List Str) :
    ∀ acc, (∀ m ∈ ms, m ≠ []) → parseModificationsGo acc ms ≠ none := by
  induction ms with
  | nil => intro acc _; simp [parseModificationsGo]
  | cons m rest ih =>
    intro acc hne
    have hmne : m ≠ [] := hne m (List.mem_cons_self m rest)
    cases hpm : parseModification m with
    | none => exact absurd hpm (parseModification_ne_none m hmne)
    | some v =>
      cases v with
      | error e => simp [parseModificationsGo, hpm]
      | ok p =>
        simp only [parseModificationsGo, hpm]
        exact ih _ (fun x hx => hne x (List.mem_cons_of_mem m hx))

/-- Claim C9 (amended): the parsers do access `fields[1]`, `fields[0][0]`,
`fields[1][0]` and `m[1]` without separator or length checks, but the
precondition totality actually requires is weaker than claimed: every
target-nucleotide string must split on '=' into at least two fields, every
mapping string must split on "->" into at least two fields, and every
modification string must be non-empty.  Under this precondition no
out-of-bounds access occurs (empty mapping fields read the terminator, and a
one-character modification string takes the documented configuration-error
path instead of crashing). -/
theorem c9_wellformed_no_oob
    (target_nucleotides nt_groups : List Str) (can_xl : List Char)
    (mappings modifications : List Str) (sequence_restriction : Str)
    (cysteine_adduct : Bool) (max_length : Nat)
    (htn : ∀ s ∈ target_nucleotides, 2 ≤ (strSplit ['='] s).length)
    (hmp : ∀ s ∈ mappings, 2 ≤ (strSplit ['-', '>'] s).length)
    (hne : ∀ m ∈ modifications, m ≠ []) :
    initModificationMassesNA target_nucleotides nt_groups can_xl mappings
      modifications sequence_restriction cysteine_adduct max_length ≠ none := by
  obtain ⟨tmap, htm⟩ := (parseTargetsGo_some_iff target_nucleotides []).mpr htn
  obtain ⟨smap, hsm⟩ := (parseMappingsGo_some_iff mappings []).mpr hmp
  cases hpm : parseModificationsGo [] modifications with
  | none => exact absurd hpm (parseModsGo_ne_none modifications [] hne)
  | some v =>
    cases v with
    | error e =>
      have hpre : preFilterState target_nucleotides nt_groups can_xl mappings
          modifications sequence_restriction max_length = some (Except.error e) := by
        simp only [preFilterState, parseTargets, htm, parseMappings, hsm, hpm]
      simp [initModificationMassesNA, hpre]
    | ok nm =>
      have hpre : ∃ pf, preFilterState target_nucleotides nt_groups can_xl mappings
          modifications sequence_restriction max_length = some (Except.ok pf) := by
        simp only [preFilterState, parseTargets, htm, parseMappings, hsm, hpm]
        exact ⟨_, rfl⟩
      obtain ⟨pf, hpre⟩ := hpre
      simp [initModificationMassesNA, hpre]

/-- Witness for C9 at a concrete well-formed configuration. -/
theorem c9_wellformed_no_oob_witness :
    initModificationMassesNA c1TargetNucleotides [] ['U'] [['A', '-', '>', 'A']]
      [['U', ':']] ['A', 'U'] false 2 ≠ none :=
  c9_wellformed_no_oob c1TargetNucleotides [] ['U'] [['A', '-', '>', 'A']]
    [['U', ':']] ['A', 'U'] false 2 (by decide) (by decide) (by decide)

/-- Claim C9 counterexample: a one-character modification string (length
below the claimed minimum of 2) does NOT cause an out-of-bounds access: its
`m[1]` read yields the null terminator (defined in C++11), which fails the
':' test, so the run takes the documented configuration-error path. -/
theorem c9_length_one_mod_is_config_error :
    initModificationMassesNA c1TargetNucleotides [] ['U'] [] [['U']]
        ['A', 'U'] false 2 = some (Except.error ()) ∧
      initModificationMassesNA c1TargetNucleotides [] ['U'] [] [['U']]
        ['A', 'U'] false 2 ≠ none := by decide

/-! ## Claim C10 -/

/-- A fold over `range n` that ignores the index is an `n`-fold iteration. -/
theorem foldl_range_const {β : Type} (f : β → β) (n : Nat) (init : β) :
    (List.range n).foldl (fun st _ => f st) init = f^[n] init := by
  induction n with
  | zero => rfl
  | succ n ih =>
    rw [List.range_succ, List.foldl_append, ih]
    simp [Function.iterate_succ_apply']

/-- `comboState` runs `comboRound` exactly `max_length - 1` times. -/
theorem comboState_eq_iter (sources : List Char) (max_length : Nat) :
    comboState sources max_length = comboIter sources (max_length - 1) :=
  foldl_range_const _ _ _

/-- After `n` rounds, the round's combinations are exactly the strings of
length `n + 1` over the source alphabet, and the accumulated combinations
are exactly the strings of lengths 1 to `n + 1`. -/
theorem comboIter_mem (sources : List Char) :
    ∀ n, (∀ s : Str, s ∈ (comboIter sources n).2 ↔
        (s.length = n + 1 ∧ ∀ c ∈ s, c ∈ sources)) ∧
      (∀ s : Str, s ∈ (comboIter sources n).1 ↔
        (1 ≤ s.length ∧ s.length ≤ n + 1 ∧ ∀ c ∈ s, c ∈ sources)) := by
  intro n
  induction n with
  | zero =>
    have hsingle : ∀ s : Str, s ∈ sources.map (fun c => [c]) ↔
        (s.length = 1 ∧ ∀ c ∈ s, c ∈ sources) := by
      intro s
      rw [List.mem_map]
      constructor
      · rintro ⟨c, hc, rfl⟩
        exact ⟨rfl, by simpa using hc⟩
      · rintro ⟨hlen, hsub⟩
        cases s with
        | nil => simp at hlen
        | cons c rest =>
          cases rest with
          | nil => exact ⟨c, hsub c (by simp), rfl⟩
          | cons d r2 => simp only [List.length_cons] at hlen; omega
    constructor
    · exact hsingle
    · intro s
      rw [show (comboIter sources 0).1 = sources.map (fun c => [c]) from rfl]
      rw [hsingle s]
      constructor
      · rintro ⟨h1, h2⟩; exact ⟨by omega, by omega, h2⟩
      · rintro ⟨h1, h2, h3⟩; exact ⟨by omega, h3⟩
  | succ n ih =>
    obtain ⟨ihA, ihAll⟩ := ih
    have hstep : comboIter sources (n + 1) =
        comboRound sources (comboIter sources n) := by
      unfold comboIter
      exact Function.iterate_succ_apply' _ n _
    have hnews : ∀ s : Str, s ∈ (comboIter sources (n + 1)).2 ↔
        (s.length = n + 2 ∧ ∀ c ∈ s, c ∈ sources) := by
      intro s
      rw [hstep]
      simp only [comboRound, List.mem_flatten, List.mem_map]
      constructor
      · rintro ⟨l, ⟨nn, hnn, rfl⟩, hs⟩
        obtain ⟨c, hc, rfl⟩ := List.mem_map.mp hs
        obtain ⟨hclen, hcsub⟩ := (ihA c).mp hc
        refine ⟨by simp [hclen], ?_⟩
        intro x hx
        rcases List.mem_cons.mp hx with rfl | hx2
        · exact hnn
        · exact hcsub x hx2
      · rintro ⟨hlen, hsub⟩
        cases s with
        | nil => simp at hlen
        | cons nn c =>
          refine ⟨(comboIter sources n).2.map (fun cc => nn :: cc),
            ⟨nn, hsub nn (by simp), rfl⟩, ?_⟩
          refine List.mem_map.mpr ⟨c, (ihA c).mpr ⟨?_, ?_⟩, rfl⟩
          · simp only [List.length_cons] at hlen; omega
          · exact fun x hx => hsub x (List.mem_cons_of_mem nn hx)
    refine ⟨hnews, ?_⟩
    intro s
    have hall : (comboIter sources (n + 1)).1 =
        (comboIter sources n).1 ++ (comboIter sources (n + 1)).2 := by
      rw [hstep]; rfl
    rw [hall, List.mem_append, ihAll s, hnews s]
    constructor
    · rintro (⟨h1, h2, h3⟩ | ⟨h1, h2⟩)
      · exact ⟨h1, by omega, h3⟩
      · exact ⟨by omega, by omega, h2⟩
    · rintro ⟨h1, h2, h3⟩
      by_cases hl : s.length ≤ n + 1
      · exact Or.inl ⟨h1, hl, h3⟩
      · exact Or.inr ⟨by omega, h3⟩

/-- Claim C10: with an empty supplied restriction sequence, the restriction
is auto-generated as the concatenation, into one single string, of the
generated combination list, which contains exactly every string over the
source-nucleotide alphabet of each length from 1 up to `max_length` (in
generation order); and the anagram-containment check on the resulting string
slides its windows over the whole concatenation, so windows spanning the
boundary between two concatenated combinations also count (witnessed by
"AAU", which matches no window of any single combination over the {A, U}
alphabet at `max_length` 2, yet is contained in the concatenated string). -/
theorem c10_auto_restriction_concatenation
    (sources : List Char) (max_length : Nat) (hml : 1 ≤ max_length) :
    autoRestriction sources max_length = (comboState sources max_length).1.flatten ∧
    (∀ s : Str, s ∈ (comboState sources max_length).1 ↔
      (1 ≤ s.length ∧ s.length ≤ max_length ∧ ∀ c ∈ s, c ∈ sources)) ∧
    (∀ query : Str, query ≠ [] →
      (notInSeq (autoRestriction sources max_length) query = false ↔
        ∃ l, l + query.length ≤ (autoRestriction sources max_length).length ∧
          (((autoRestriction sources max_length).drop l).take query.length).Perm query)) ∧
    (notInSeq (autoRestriction ['A', 'U'] 2) ['A', 'A', 'U'] = false ∧
      ∀ s ∈ (comboState ['A', 'U'] 2).1, notInSeq s ['A', 'A', 'U'] = true) := by
  refine ⟨rfl, ?_, ?_, by decide⟩
  · intro s
    rw [comboState_eq_iter]
    rw [(comboIter_mem sources (max_length - 1)).2 s]
    constructor
    · rintro ⟨h1, h2, h3⟩; exact ⟨h1, by omega, h3⟩
    · rintro ⟨h1, h2, h3⟩; exact ⟨h1, by omega, h3⟩
  · intro query hq
    exact notInSeq_false_iff _ query hq

/-- Witness for C10: at the concrete alphabet {A, U} and maximum length 2,
the combination "AU" is characterized as generated. -/
theorem c10_auto_restriction_concatenation_witness :
    ['A', 'U'] ∈ (comboState ['A', 'U'] 2).1 :=
  ((c10_auto_restriction_concatenation ['A', 'U'] 2 (by decide)).2.1
    ['A', 'U']).mpr ⟨by decide, by decide, by decide⟩

/-! ## Association-list and ordered-set lemmas -/

section AListLemmas

variable {κ : Type} {α : Type}

/-- Unfolding equation for lookup at a cons cell. -/
theorem alGetD_cons [DecidableEq κ] (a : κ) (b : α) (r : List (κ × α)) (k : κ) (d : α) :
    alGetD ((a, b) :: r) k d = if k = a then b else alGetD r k d := rfl

/-- Unfolding equation for modify at a cons cell. -/
theorem alModify_cons [DecidableEq κ] (k : κ) (f : α → α) (a : κ) (b : α) (r : List (κ × α)) :
    alModify k f ((a, b) :: r) =
      if k = a then (a, f b) :: r else (a, b) :: alModify k f r := rfl

/-- Unfolding equation for ordered insertion at a cons cell. -/
theorem alInsort_cons (lt : κ → κ → Bool) (e : κ × α) (a : κ) (b : α)
    (r : List (κ × α)) :
    alInsort lt e ((a, b) :: r) =
      if lt e.1 a then e :: (a, b) :: r else (a, b) :: alInsort lt e r := rfl

/-- Lookup of an absent key gives the default. -/
theorem alGetD_not_mem [DecidableEq κ] (m : List (κ × α)) (k : κ) (d : α) (h : k ∉ alKeys m) :
    alGetD m k d = d := by
  induction m with
  | nil => rfl
  | cons e r ih =>
    obtain ⟨a, b⟩ := e
    have hne : k ≠ a := by
      intro he
      exact h (by simp [alKeys, he])
    rw [alGetD_cons, if_neg hne]
    exact ih (fun hr => h (by simp [alKeys] at hr ⊢; exact Or.inr hr))

/-- Modifying a present key maps its looked-up value. -/
theorem alGetD_modify_self [DecidableEq κ] (m : List (κ × α)) (k : κ) (f : α → α) (d : α)
    (h : k ∈ alKeys m) : alGetD (alModify k f m) k d = f (alGetD m k d) := by
  induction m with
  | nil => simp [alKeys] at h
  | cons e r ih =>
    obtain ⟨a, b⟩ := e
    by_cases he : k = a
    · rw [alModify_cons, if_pos he, alGetD_cons, if_pos he, alGetD_cons, if_pos he]
    · have hr : k ∈ alKeys r := by
        simp [alKeys] at h ⊢
        rcases h with h | h
        · exact absurd h he
        · exact h
      rw [alModify_cons, if_neg he, alGetD_cons, if_neg he, alGetD_cons, if_neg he]
      exact ih hr

/-- Modifying one key leaves other lookups unchanged. -/
theorem alGetD_modify_ne [DecidableEq κ] (m : List (κ × α)) (k k2 : κ) (f : α → α) (d : α)
    (h : k ≠ k2) : alGetD (alModify k2 f m) k d = alGetD m k d := by
  induction m with
  | nil => rfl
  | cons e r ih =>
    obtain ⟨a, b⟩ := e
    by_cases he : k2 = a
    · have hka : k ≠ a := fun hc => h (hc.trans he.symm)
      rw [alModify_cons, if_pos he, alGetD_cons, if_neg hka, alGetD_cons, if_neg hka]
    · rw [alModify_cons, if_neg he]
      by_cases hk : k = a
      · rw [alGetD_cons, if_pos hk, alGetD_cons, if_pos hk]
      · rw [alGetD_cons, if_neg hk, alGetD_cons, if_neg hk]
        exact ih

/-- Inserting an entry with a different key leaves a lookup unchanged. -/
theorem alGetD_insort_ne [DecidableEq κ] (lt : κ → κ → Bool) (m : List (κ × α)) (k : κ)
    (e : κ × α) (d : α) (h : k ≠ e.1) :
    alGetD (alInsort lt e m) k d = alGetD m k d := by
  induction m with
  | nil =>
    obtain ⟨a, b⟩ := e
    rw [show alInsort lt (a, b) [] = [(a, b)] from rfl, alGetD_cons, if_neg h]
  | cons e2 r ih =>
    obtain ⟨a2, b2⟩ := e2
    rw [alInsort_cons]
    split
    · obtain ⟨a, b⟩ := e
      rw [alGetD_cons, if_neg h]
    · by_cases hk : k = a2
      · rw [alGetD_cons, if_pos hk, alGetD_cons, if_pos hk]
      · rw [alGetD_cons, if_neg hk, alGetD_cons, if_neg hk]
        exact ih

/-- Inserting an entry whose key is absent makes it the looked-up value. -/
theorem alGetD_insort_self [DecidableEq κ] (lt : κ → κ → Bool) (m : List (κ × α))
    (e : κ × α) (d : α) (h : e.1 ∉ alKeys m) :
    alGetD (alInsort lt e m) e.1 d = e.2 := by
  induction m with
  | nil =>
    obtain ⟨a, b⟩ := e
    rw [show alInsort lt (a, b) [] = [(a, b)] from rfl, alGetD_cons, if_pos rfl]
  | cons e2 r ih =>
    obtain ⟨a2, b2⟩ := e2
    have hne : e.1 ≠ a2 := by
      intro hc
      exact h (by simp [alKeys, hc])
    rw [alInsort_cons]
    split
    · obtain ⟨a, b⟩ := e
      rw [alGetD_cons, if_pos rfl]
    · rw [alGetD_cons, if_neg hne]
      exact ih (fun hr => h (by simp [alKeys] at hr ⊢; exact Or.inr hr))

/-- `operator[]`-update at a key maps its looked-up value (with the update's
default). -/
theorem alGetD_update_self [DecidableEq κ] (lt : κ → κ → Bool) (m : List (κ × α)) (k : κ)
    (d : α) (f : α → α) : alGetD (alUpdate lt k d f m) k d = f (alGetD m k d) := by
  unfold alUpdate
  split
  · exact alGetD_modify_self m k f d (by assumption)
  · rw [alGetD_insort_self lt m (k, f d) d (by assumption),
      alGetD_not_mem m k d (by assumption)]

/-- `operator[]`-update at one key leaves other lookups unchanged. -/
theorem alGetD_update_ne [DecidableEq κ] (lt : κ → κ → Bool) (m : List (κ × α)) (k k2 : κ)
    (d d2 : α) (f : α → α) (h : k ≠ k2) :
    alGetD (alUpdate lt k2 d2 f m) k d = alGetD m k d := by
  unfold alUpdate
  split
  · exact alGetD_modify_ne m k k2 f d h
  · exact alGetD_insort_ne lt m k (k2, f d2) d h

/-- Membership in an ordered-set insertion. -/
theorem mem_setInsort (lt : κ → κ → Bool) (x y : κ) (s : List κ) :
    y ∈ setInsort lt x s ↔ y = x ∨ y ∈ s := by
  induction s with
  | nil => simp [setInsort]
  | cons z r ih =>
    simp only [setInsort]
    split
    · simp
    · simp only [List.mem_cons, ih]
      constructor
      · rintro (h | h | h)
        · exact Or.inr (Or.inl h)
        · exact Or.inl h
        · exact Or.inr (Or.inr h)
      · rintro (h | h | h)
        · exact Or.inr (Or.inl h)
        · exact Or.inl h
        · exact Or.inr (Or.inr h)

/-- The inserted element is in the set. -/
theorem mem_setInsert_self [DecidableEq κ] (lt : κ → κ → Bool) (x : κ) (s : List κ) :
    x ∈ setInsert lt x s := by
  unfold setInsert
  split
  · assumption
  · exact (mem_setInsort lt x x s).mpr (Or.inl rfl)

/-- Insertion keeps the existing elements. -/
theorem mem_setInsert_of_mem [DecidableEq κ] (lt : κ → κ → Bool) (x y : κ) (s : List κ)
    (h : y ∈ s) : y ∈ setInsert lt x s := by
  unfold setInsert
  split
  · exact h
  · exact (mem_setInsort lt x y s).mpr (Or.inr h)

end AListLemmas

/-! ## Claim C6 -/

/-- Updates whose value map only grows a set keep every recorded ambiguity
string. -/
theorem mods_mem_preserved (k k2 : Formula) (x : Str) (g : List Str → List Str)
    (hg : ∀ l : List Str, ∀ y ∈ l, y ∈ g l) (m : ModsMap)
    (hx : x ∈ alGetD m k []) : x ∈ alGetD (alUpdate fLtB k2 [] g m) k [] := by
  by_cases he : k = k2
  · subst he
    rw [alGetD_update_self fLtB m k [] g]
    exact hg _ x hx
  · rw [alGetD_update_ne fLtB m k k2 [] [] g he]
    exact hx

/-- `chainInsert` keeps every recorded ambiguity string. -/
theorem chainInsert_mods_preserved (nt : Str) (f : Formula) (ambs : List Str)
    (m : ModsMap) (k : Formula) (x : Str) (hx : x ∈ alGetD m k []) :
    x ∈ alGetD (chainInsert nt f ambs m) k [] := by
  unfold chainInsert
  refine foldl_inv (fun mm => x ∈ alGetD mm k []) _ ambs m hx ?_
  intro b s _ hb
  exact mods_mem_preserved k f x _ (fun l y hy => mem_setInsert_of_mem _ _ y l hy) b hb

/-- `chainInsert` records the new symbol prepended to every inherited
string. -/
theorem chainInsert_mem (nt : Str) (f : Formula) (ambs : List Str)
    (m : ModsMap) (s : Str) (hs : s ∈ ambs) :
    nt ++ s ∈ alGetD (chainInsert nt f ambs m) f [] := by
  induction ambs generalizing m with
  | nil => exact absurd hs (List.not_mem_nil s)
  | cons a rest ih =>
    rw [show chainInsert nt f (a :: rest) m =
        chainInsert nt f rest (alUpdate fLtB f [] (setInsert strLtB (nt ++ a)) m) from rfl]
    rcases List.mem_cons.mp hs with rfl | hs2
    · have h1 : nt ++ s ∈
          alGetD (alUpdate fLtB f [] (setInsert strLtB (nt ++ s)) m) f [] := by
        rw [alGetD_update_self]
        exact mem_setInsert_self _ _ _
      exact chainInsert_mods_preserved nt f rest _ f (nt ++ s) h1
    · exact ih _ hs2

/-- A `chainStep` keeps every recorded ambiguity string. -/
theorem chainStep_mods_preserved (nt : Str) (ntF : Formula)
    (z : List Formula × List Formula × ModsMap) (ac : Formula)
    (k : Formula) (x : Str) (hx : x ∈ alGetD z.2.2 k []) :
    x ∈ alGetD (chainStep nt ntF z ac).2.2 k [] := by
  unfold chainStep
  refine chainInsert_mods_preserved _ _ _ _ k x ?_
  exact mods_mem_preserved k ac x id (fun l y hy => hy) z.2.2 hx

/-- A fold that establishes a goal at one designated element of the list and
preserves it afterwards (and preserves the precondition up to that element)
yields the goal. -/
theorem foldl_mem_step {α β : Type} (step : β → α → β) (l : List α) (a : α)
    (ha : a ∈ l) (P Q : β → Prop)
    (hmono : ∀ b x, x ∈ l → Q b → Q (step b x))
    (hstep : ∀ b, P b → Q (step b a))
    (hP : ∀ b x, x ∈ l → P b → P (step b x))
    (init : β) (hinit : P init) : Q (l.foldl step init) := by
  induction l generalizing init with
  | nil => exact absurd ha (List.not_mem_nil a)
  | cons x rest ih =>
    rcases List.mem_cons.mp ha with rfl | ha2
    · refine foldl_inv Q step rest (step init a) (hstep init hinit) ?_
      intro b y hy hb
      exact hmono b y (List.mem_cons_of_mem a hy) hb
    · exact ih ha2 (fun b y hy hb => hmono b y (List.mem_cons_of_mem x hy) hb)
        (fun b y hy hb => hP b y (List.mem_cons_of_mem x hy) hb) (step init x)
        (hP init x (List.mem_cons_self x rest) hinit)

/-- Claim C6: the chain-extension loop runs exactly `max_length - 1` rounds
of `chainRound`, and one round, for every target nucleotide `(nt, ntF)` and
every combination `ac` of the previous round, produces the condensation
formula `ntF + ac - H2O` among the round's combinations and the accumulated
`all_combinations`, with the ambiguity set stored for the new formula
containing `nt` prepended to every ambiguity string previously recorded for
`ac`. -/
theorem c6_chain_extension (tmap : List (Str × Formula)) (st : ChainState)
    (nt : Str) (ntF : Formula) (ac : Formula) (s : Str)
    (hnt : (nt, ntF) ∈ tmap) (hac : ac ∈ st.actual)
    (hs : s ∈ alGetD st.mods ac []) :
    (∀ (max_length : Nat) (st0 : ChainState),
      chainStage tmap max_length st0 =
        (fun x => chainRound tmap x)^[max_length - 1] st0) ∧
    fSub (fAdd ntF ac) H2O ∈ (chainRound tmap st).actual ∧
    fSub (fAdd ntF ac) H2O ∈ (chainRound tmap st).all ∧
    nt ++ s ∈ alGetD (chainRound tmap st).mods (fSub (fAdd ntF ac) H2O) [] := by
  refine ⟨fun _ _ => rfl, ?_⟩
  set f := fSub (fAdd ntF ac) H2O with hf
  have key : f ∈ (tmap.foldl (fun z p => st.actual.foldl (chainStep p.1 p.2) z)
        (([] : List Formula), st.all, st.mods)).1 ∧
      f ∈ (tmap.foldl (fun z p => st.actual.foldl (chainStep p.1 p.2) z)
        (([] : List Formula), st.all, st.mods)).2.1 ∧
      nt ++ s ∈ alGetD (tmap.foldl (fun z p => st.actual.foldl (chainStep p.1 p.2) z)
        (([] : List Formula), st.all, st.mods)).2.2 f [] := by
    refine foldl_mem_step _ tmap (nt, ntF) hnt
      (fun z : List Formula × List Formula × ModsMap => s ∈ alGetD z.2.2 ac [])
      (fun z : List Formula × List Formula × ModsMap =>
        f ∈ z.1 ∧ f ∈ z.2.1 ∧ nt ++ s ∈ alGetD z.2.2 f []) ?_ ?_ ?_ _ hs
    · intro b p _ hb
      refine foldl_inv
        (fun z : List Formula × List Formula × ModsMap =>
          f ∈ z.1 ∧ f ∈ z.2.1 ∧ nt ++ s ∈ alGetD z.2.2 f [])
        _ st.actual b hb ?_
      intro z x _ hz
      refine ⟨?_, ?_, ?_⟩
      · exact List.mem_append_left _ hz.1
      · exact List.mem_append_left _ hz.2.1
      · exact chainStep_mods_preserved p.1 p.2 z x f (nt ++ s) hz.2.2
    · intro b hb
      refine foldl_mem_step _ st.actual ac hac
        (fun z : List Formula × List Formula × ModsMap => s ∈ alGetD z.2.2 ac [])
        (fun z : List Formula × List Formula × ModsMap =>
          f ∈ z.1 ∧ f ∈ z.2.1 ∧ nt ++ s ∈ alGetD z.2.2 f []) ?_ ?_ ?_ b hb
      · intro z x _ hz
        refine ⟨List.mem_append_left _ hz.1, List.mem_append_left _ hz.2.1, ?_⟩
        exact chainStep_mods_preserved nt ntF z x f (nt ++ s) hz.2.2
      · intro z hz
        have hambs : s ∈ alGetD (alUpdate fLtB ac [] id z.2.2) ac [] := by
          rw [alGetD_update_self]
          exact hz
        refine ⟨?_, ?_, ?_⟩
        · exact List.mem_append_right _ (by simp [chainStep, hf])
        · exact List.mem_append_right _ (by simp [chainStep, hf])
        · exact chainInsert_mem nt f _ _ s hambs
      · intro z x _ hz
        exact chainStep_mods_preserved nt ntF z x ac s hz
    · intro b p _ hb
      refine foldl_inv
        (fun z : List Formula × List Formula × ModsMap => s ∈ alGetD z.2.2 ac [])
        _ st.actual b hb ?_
      intro z x _ hz
      exact chainStep_mods_preserved p.1 p.2 z x ac s hz
  exact key

/-- Witness for C6 at a concrete one-element previous round. -/
theorem c6_chain_extension_witness :
    fSub (fAdd c1FormulaA c1FormulaU) H2O ∈
      (chainRound [(['A'], c1FormulaA), (['U'], c1FormulaU)]
        ⟨[c1FormulaU], [c1FormulaU], [(c1FormulaU, [['U']])]⟩).actual ∧
    fSub (fAdd c1FormulaA c1FormulaU) H2O ∈
      (chainRound [(['A'], c1FormulaA), (['U'], c1FormulaU)]
        ⟨[c1FormulaU], [c1FormulaU], [(c1FormulaU, [['U']])]⟩).all ∧
    ['A', 'U'] ∈ alGetD
      (chainRound [(['A'], c1FormulaA), (['U'], c1FormulaU)]
        ⟨[c1FormulaU], [c1FormulaU], [(c1FormulaU, [['U']])]⟩).mods
      (fSub (fAdd c1FormulaA c1FormulaU) H2O) [] :=
  (c6_chain_extension [(['A'], c1FormulaA), (['U'], c1FormulaU)]
    ⟨[c1FormulaU], [c1FormulaU], [(c1FormulaU, [['U']])]⟩
    ['A'] c1FormulaA c1FormulaU ['U'] (by decide) (by decide) (by decide)).2

/-! ## Claim C4 -/

/-- An `operator[]` read with no value change leaves every lookup (with the
empty default) unchanged. -/
theorem alGetD_ensure (k k2 : Formula) (m : ModsMap) :
    alGetD (alUpdate fLtB k2 [] id m) k [] = alGetD m k [] := by
  by_cases h : k = k2
  · subst h
    rw [alGetD_update_self]
    rfl
  · exact alGetD_update_ne fLtB m k k2 [] [] id h

/-- `ensureKeys` changes no lookup. -/
theorem alGetD_ensureKeys (f2m : F2M) : ∀ (mods : ModsMap) (k : Formula),
    alGetD (ensureKeys f2m mods) k [] = alGetD mods k [] := by
  induction f2m with
  | nil => intro mods k; rfl
  | cons km rest ih =>
    intro mods k
    rw [show ensureKeys (km :: rest) mods =
        ensureKeys rest (alUpdate fLtB km.1 [] id mods) from rfl, ih, alGetD_ensure]

/-- The visited pair list depends only on the lookups. -/
theorem pairList_congr (f2m : F2M) (m1 m2 : ModsMap)
    (h : ∀ k, alGetD m1 k [] = alGetD m2 k []) :
    pairList f2m m1 = pairList f2m m2 := by
  unfold pairList
  simp only [h]

/-- The effect of one `pairStep` on the recording list: the pair is recorded
exactly when the early filters pass — regardless of the containment or
deduplication outcomes (the C++ records after the two push-only checks). -/
theorem pairStep_uniq (P : FilterParams) (k : Formula) (mass : Int) (s : Str)
    (vu : Violations × UniqList) :
    (pairStep P k mass s vu).2 =
      if pairEarlyPass P s then vu.2 ++ [(stripSort s, mass)] else vu.2 := by
  by_cases h1 : 2 ≤ countLower (stripSort s)
  · have h1' : ¬countLower (stripSort s) < 2 := Nat.not_lt.mpr h1
    simp [pairStep, pairEarlyPass, h1, h1']
  · have h1' : countLower (stripSort s) < 2 := Nat.not_le.mp h1
    by_cases h2 : hasXl P.can_xl (stripSort s)
    · by_cases h3 : P.max_length < (stripSort s).length
      · have h3' : ¬(stripSort s).length ≤ P.max_length := Nat.not_le.mpr h3
        simp [pairStep, pairEarlyPass, h1, h1', h2, h3, h3']
      · have h3' : (stripSort s).length ≤ P.max_length := Nat.not_lt.mp h3
        by_cases h4 : 1 < groupsHit P.nt_groups (stripSort s)
        · have h4' : ¬groupsHit P.nt_groups (stripSort s) ≤ 1 := Nat.not_le.mpr h4
          simp [pairStep, pairEarlyPass, h1, h1', h2, h3, h3', h4, h4']
        · have h4' : groupsHit P.nt_groups (stripSort s) ≤ 1 := Nat.not_lt.mp h4
          simp [pairStep, pairEarlyPass, h1, h1', h2, h3, h3', h4, h4']
    · simp [pairStep, pairEarlyPass, h1, h1', h2]

/-- The recording list after a run: the initial list followed by the
(sorted composition, mass) of every pair passing the early filters, in
order. -/
theorem runPairs_uniq (P : FilterParams) (ps : List (Formula × Int × Str)) :
    ∀ vu : Violations × UniqList,
      (runPairs P ps vu).2 = vu.2 ++
        (ps.filter (fun p => pairEarlyPass P p.2.2)).map
          (fun p => (stripSort p.2.2, p.2.1)) := by
  induction ps with
  | nil => intro vu; simp [runPairs]
  | cons p rest ih =>
    intro vu
    rw [show runPairs P (p :: rest) vu =
        runPairs P rest (pairStep P p.1 p.2.1 p.2.2 vu) from rfl, ih,
      List.filter_cons]
    by_cases h : pairEarlyPass P p.2.2
    · rw [pairStep_uniq, if_pos h, if_pos h]
      simp
    · rw [pairStep_uniq, if_neg h, if_neg h]

/-- Splitting a pair run at a list append. -/
theorem runPairs_append (P : FilterParams) (xs ys : List (Formula × Int × Str))
    (vu : Violations × UniqList) :
    runPairs P (xs ++ ys) vu = runPairs P ys (runPairs P xs vu) :=
  List.foldl_append _ _ _ _

/-- The filter fold in terms of the explicit pair list: the `mod_combinations`
side only gains the ensured entries, and the violation/record side is the
pair run over the visited pairs. -/
theorem filterFold_eq (P : FilterParams) (f2m : F2M) :
    ∀ (mods : ModsMap) (vu : Violations × UniqList),
      f2m.foldl (filterKey P) (mods, vu) =
        (ensureKeys f2m mods, runPairs P (pairList f2m mods) vu) := by
  induction f2m with
  | nil => intro mods vu; simp [ensureKeys, runPairs, pairList]
  | cons km rest ih =>
    intro mods vu
    rw [List.foldl_cons,
      show filterKey P (mods, vu) km = (alUpdate fLtB km.1 [] id mods,
        (alGetD (alUpdate fLtB km.1 [] id mods) km.1 []).foldl
          (fun vu s => pairStep P km.1 km.2 s vu) vu) from rfl,
      ih, alGetD_ensure,
      pairList_congr rest _ mods (fun k => alGetD_ensure k km.1 mods),
      show pairList (km :: rest) mods =
        (alGetD mods km.1 []).map (fun s => (km.1, km.2, s)) ++ pairList rest mods
        from by simp [pairList],
      runPairs_append,
      show runPairs P ((alGetD mods km.1 []).map (fun s => (km.1, km.2, s))) vu =
        (alGetD mods km.1 []).foldl (fun vu s => pairStep P km.1 km.2 s vu) vu
        from List.foldl_map _ _ _ _]
    rfl

/-- `filterLoop` in terms of the pair run. -/
theorem filterLoop_eq (P : FilterParams) (f2m : F2M) (mods : ModsMap) :
    filterLoop P f2m mods =
      (ensureKeys f2m mods, (runPairs P (pairList f2m mods) ([], [])).1) := by
  unfold filterLoop
  rw [filterFold_eq P f2m mods ([], [])]

/-- In-range indexing agrees with `List.get`. -/
theorem pairAt_eq_get (ps : List (Formula × Int × Str)) (i : Nat)
    (h : i < ps.length) : pairAt ps i = ps.get ⟨i, h⟩ := by
  unfold pairAt
  rw [List.getD_eq_getElem?_getD, List.getElem?_eq_getElem h]
  simp

/-- Membership in a take, by index. -/
theorem mem_take_iff {α : Type} (l : List α) (n : Nat) (x : α) :
    x ∈ l.take n ↔ ∃ j, ∃ hj : j < l.length, j < n ∧ l.get ⟨j, hj⟩ = x := by
  constructor
  · intro h
    obtain ⟨⟨j, hjl⟩, hget⟩ := List.mem_iff_get.mp h
    have hlen : j < n ⊓ l.length := by simpa [List.length_take] using hjl
    refine ⟨j, by omega, by omega, ?_⟩
    rw [← hget]
    simp [List.get_eq_getElem, List.getElem_take]
  · rintro ⟨j, hj, hjn, rfl⟩
    apply List.mem_iff_get.mpr
    refine ⟨⟨j, by simp [List.length_take]; omega⟩, ?_⟩
    simp [List.get_eq_getElem, List.getElem_take]

/-- Claim C4 (amended): the filter loop visits exactly the pairs of
`pairList` (first conjunct), and a pair is rejected by the deduplication
rule exactly when an EARLIER pair with the same (sorted composition, mass)
passed the four early filters — i.e. reached the recording stage — whether
or not that earlier pair passed the containment check or the deduplication
check itself (the C++ records every such pair, having no `continue` in the
last two checks). -/
theorem c4_dedup_iff_recorded (P : FilterParams)
    (ps : List (Formula × Int × Str)) (i : Nat) (h : i < ps.length) :
    (∀ (f2m : F2M) (mods : ModsMap),
      filterLoop P f2m mods =
        (ensureKeys f2m mods, (runPairs P (pairList f2m mods) ([], [])).1)) ∧
    (dedupRejects P ps i ↔
      pairEarlyPass P (pairAt ps i).2.2 = true ∧
        ∃ j, j < i ∧
          pairEarlyPass P (pairAt ps j).2.2 = true ∧
          stripSort (pairAt ps j).2.2 = stripSort (pairAt ps i).2.2 ∧
          (pairAt ps j).2.1 = (pairAt ps i).2.1) := by
  refine ⟨filterLoop_eq P, ?_⟩
  unfold dedupRejects
  rw [runPairs_uniq]
  simp only [List.nil_append, List.mem_map, List.mem_filter]
  constructor
  · rintro ⟨hearly, q, ⟨hqmem, hqpass⟩, hqeq⟩
    obtain ⟨j, hjl, hjn, rfl⟩ := (mem_take_iff ps i q).mp hqmem
    rw [← pairAt_eq_get ps j hjl] at hqpass hqeq
    refine ⟨hearly, j, hjn, hqpass, ?_, ?_⟩
    · exact (Prod.mk.injEq _ _ _ _).mp hqeq |>.1
    · exact (Prod.mk.injEq _ _ _ _).mp hqeq |>.2
  · rintro ⟨hearly, j, hj, hjpass, hjcomp, hjmass⟩
    have hjl : j < ps.length := hj.trans h
    refine ⟨hearly, pairAt ps j, ⟨?_, hjpass⟩, ?_⟩
    · rw [pairAt_eq_get ps j hjl]
      exact (mem_take_iff ps i _).mpr ⟨j, hjl, hj, rfl⟩
    · rw [hjcomp, hjmass]

/-- Claim C4 counterexample: in the C4 scenario the pair "UA" (index 4) is
rejected by the deduplication rule although NO pair was accepted (passed all
seven filters) with its composition earlier: the earlier anagram "AU" failed
the containment check, yet was still recorded.  The claim's
characterization of rule 7 is therefore false at this input. -/
theorem c4_dedup_not_only_accepted :
    c4Pre = some (Except.ok c4PF) ∧
    ¬(∀ i : Nat, i < c4Pairs.length →
        (dedupRejects c4PF.params c4Pairs i ↔
          ∃ j, j < i ∧
            fullPass c4PF.params c4Pairs j ∧
            stripSort (pairAt c4Pairs j).2.2 = stripSort (pairAt c4Pairs i).2.2 ∧
            (pairAt c4Pairs j).2.1 = (pairAt c4Pairs i).2.1)) := by
  refine ⟨by decide, ?_⟩
  intro hall
  have hded : dedupRejects c4PF.params c4Pairs 4 := ⟨by decide, by decide⟩
  obtain ⟨j, hj4, hfull, hcomp, hmass⟩ := (hall 4 (by decide)).mp hded
  interval_cases j
  · exact absurd hcomp (by decide)
  · exact absurd hfull.1 (by decide)
  · exact absurd hcomp (by decide)
  · exact absurd hfull.2.1 (by decide)

/-- Witness for the amended C4 theorem: in the C4 scenario, pair 4 ("UA")
is dedup-rejected because pair 3 ("AU") reached the recording stage. -/
theorem c4_dedup_iff_recorded_witness :
    dedupRejects c4PF.params c4Pairs 4 :=
  ((c4_dedup_iff_recorded c4PF.params c4Pairs 4 (by decide)).2).mpr
    ⟨by decide, 3, by decide, by decide, by decide, by decide⟩

/-! ## Key-set and entry lemmas for C2 and C3 -/

section KeyLemmas

variable {κ : Type} {α : Type}

/-- Modification does not change the key list. -/
theorem alKeys_modify [DecidableEq κ] (k : κ) (f : α → α) (m : List (κ × α)) :
    alKeys (alModify k f m) = alKeys m := by
  induction m with
  | nil => rfl
  | cons e r ih =>
    obtain ⟨a, b⟩ := e
    rw [alModify_cons]
    split
    · simp [alKeys]
    · simp only [alKeys, List.map_cons] at ih ⊢
      rw [ih]

/-- The key list of an ordered insertion is a permutation of consing the new
key. -/
theorem alKeys_insort_perm (lt : κ → κ → Bool) (e : κ × α) (m : List (κ × α)) :
    (alKeys (alInsort lt e m)).Perm (e.1 :: alKeys m) := by
  induction m with
  | nil => simp [alInsort, alKeys]
  | cons e2 r ih =>
    obtain ⟨a2, b2⟩ := e2
    rw [alInsort_cons]
    split
    · simp [alKeys]
    · simp only [alKeys, List.map_cons] at ih ⊢
      exact (ih.cons a2).trans (List.Perm.swap e.1 a2 _)

/-- Key membership after an `operator[]` update. -/
theorem mem_alKeys_update [DecidableEq κ] (lt : κ → κ → Bool) (k k2 : κ)
    (d : α) (f : α → α) (m : List (κ × α)) :
    k ∈ alKeys (alUpdate lt k2 d f m) ↔ k = k2 ∨ k ∈ alKeys m := by
  unfold alUpdate
  split
  · rw [alKeys_modify]
    constructor
    · exact fun h => Or.inr h
    · rintro (rfl | h)
      · assumption
      · exact h
  · rw [(alKeys_insort_perm lt (k2, f d) m).mem_iff]
    simp

/-- Key distinctness is preserved by an `operator[]` update. -/
theorem nodup_alKeys_update [DecidableEq κ] (lt : κ → κ → Bool) (k : κ)
    (d : α) (f : α → α) (m : List (κ × α)) (h : (alKeys m).Nodup) :
    (alKeys (alUpdate lt k d f m)).Nodup := by
  unfold alUpdate
  split
  · rw [alKeys_modify]
    exact h
  · exact ((alKeys_insort_perm lt (k, f d) m).nodup_iff).mpr (by
      refine List.Nodup.cons ?_ h
      assumption)

/-- Entries after an `operator[]` update: an untouched old entry, or the
updated/new entry at the key. -/
theorem mem_entries_update [DecidableEq κ] (lt : κ → κ → Bool) (k : κ)
    (d : α) (f : α → α) (m : List (κ × α)) (p : κ × α)
    (hp : p ∈ alUpdate lt k d f m) :
    p ∈ m ∨ (p.1 = k ∧ ∃ v, p.2 = f v ∧ ((k, v) ∈ m ∨ v = d)) := by
  unfold alUpdate at hp
  by_cases hk : k ∈ alKeys m
  · rw [if_pos hk] at hp
    clear hk
    induction m with
    | nil => exact absurd hp (List.not_mem_nil p)
    | cons e r ih =>
      obtain ⟨a, b⟩ := e
      rw [alModify_cons] at hp
      split at hp
      · rcases List.mem_cons.mp hp with rfl | hp2
        · next he =>
          exact Or.inr ⟨he.symm ▸ rfl, b, rfl, Or.inl (by rw [he]; exact List.mem_cons_self _ _)⟩
        · exact Or.inl (List.mem_cons_of_mem _ hp2)
      · rcases List.mem_cons.mp hp with rfl | hp2
        · exact Or.inl (List.mem_cons_self _ _)
        · rcases ih hp2 with h | ⟨h1, v, h2, h3⟩
          · exact Or.inl (List.mem_cons_of_mem _ h)
          · rcases h3 with h3 | h3
            · exact Or.inr ⟨h1, v, h2, Or.inl (List.mem_cons_of_mem _ h3)⟩
            · exact Or.inr ⟨h1, v, h2, Or.inr h3⟩
  · rw [if_neg hk] at hp
    clear hk
    induction m with
    | nil =>
      rcases List.mem_cons.mp hp with rfl | hp2
      · exact Or.inr ⟨rfl, d, rfl, Or.inr rfl⟩
      · exact absurd hp2 (List.not_mem_nil p)
    | cons e r ih =>
      obtain ⟨a, b⟩ := e
      rw [alInsort_cons] at hp
      split at hp
      · rcases List.mem_cons.mp hp with rfl | hp2
        · exact Or.inr ⟨rfl, d, rfl, Or.inr rfl⟩
        · exact Or.inl hp2
      · rcases List.mem_cons.mp hp with rfl | hp2
        · exact Or.inl (List.mem_cons_self _ _)
        · rcases ih hp2 with h | ⟨h1, v, h2, h3⟩
          · exact Or.inl (List.mem_cons_of_mem _ h)
          · rcases h3 with h3 | h3
            · exact Or.inr ⟨h1, v, h2, Or.inl (List.mem_cons_of_mem _ h3)⟩
            · exact Or.inr ⟨h1, v, h2, Or.inr h3⟩

/-- Under distinct keys, an entry's value is the looked-up value. -/
theorem alGetD_of_mem_nodup [DecidableEq κ] (m : List (κ × α)) (k : κ) (v : α)
    (d : α) (hm : (k, v) ∈ m) (hnd : (alKeys m).Nodup) : alGetD m k d = v := by
  induction m with
  | nil => exact absurd hm (List.not_mem_nil _)
  | cons e r ih =>
    obtain ⟨a, b⟩ := e
    simp only [alKeys, List.map_cons, List.nodup_cons] at hnd
    rcases List.mem_cons.mp hm with he | hm2
    · have h1 : k = a := congrArg Prod.fst he
      have h2 : v = b := congrArg Prod.snd he
      rw [alGetD_cons, if_pos h1, h2]
    · have hka : k ≠ a := by
        intro he
        exact hnd.1 (List.mem_map.mpr ⟨(k, v), hm2, he⟩)
      rw [alGetD_cons, if_neg hka]
      exact ih hm2 hnd.2

/-- Key membership after an erase. -/
theorem mem_alKeys_erase [DecidableEq κ] (k k2 : κ) (m : List (κ × α)) :
    k ∈ alKeys (alErase k2 m) ↔ k ∈ alKeys m ∧ ¬k = k2 := by
  unfold alErase alKeys
  simp only [List.mem_map, List.mem_filter, decide_not]
  constructor
  · rintro ⟨p, ⟨hp, hpk⟩, rfl⟩
    simp at hpk
    exact ⟨⟨p, hp, rfl⟩, hpk⟩
  · rintro ⟨⟨p, hp, rfl⟩, hk⟩
    exact ⟨p, ⟨hp, by simpa using hk⟩, rfl⟩

end KeyLemmas

/-! ## Violation-collection lemmas -/

/-- Case analysis of the violation list after one `pairStep`: unchanged, or
the processed pair appended once, or appended twice (containment violation
followed by the dedup hit — neither check `continue`s). -/
theorem pairStep_violates_cases (P : FilterParams) (k : Formula) (mass : Int)
    (s : Str) (vu : Violations × UniqList) :
    (pairStep P k mass s vu).1 = vu.1 ∨
    (pairStep P k mass s vu).1 = vu.1 ++ [(k, s)] ∨
    (pairStep P k mass s vu).1 = (vu.1 ++ [(k, s)]) ++ [(k, s)] := by
  by_cases h1 : 2 ≤ countLower (stripSort s)
  · right; left
    simp [pairStep, h1]
  · by_cases h2 : hasXl P.can_xl (stripSort s)
    · by_cases h3 : P.max_length < (stripSort s).length
      · right; left
        simp [pairStep, h1, h3]
      · by_cases h4 : 1 < groupsHit P.nt_groups (stripSort s)
        · right; left
          simp [pairStep, h1, h3, h4]
        · by_cases h5 : containViolated P.target_sequences (stripSort s)
          · by_cases h6 : (stripSort s, mass) ∈ vu.2
            · right; right
              simp [pairStep, h1, h2, h3, h4, h5, h6]
            · right; left
              simp [pairStep, h1, h2, h3, h4, h5, h6]
          · by_cases h6 : (stripSort s, mass) ∈ vu.2
            · right; left
              simp [pairStep, h1, h2, h3, h4, h5, h6]
            · left
              simp [pairStep, h1, h2, h3, h4, h5, h6]
    · right; left
      simp [pairStep, h1, h2]

/-- Whatever one `pairStep` adds to the violation list is the processed
pair itself. -/
theorem pairStep_violates_mem (P : FilterParams) (k : Formula) (mass : Int)
    (s : Str) (vu : Violations × UniqList) (x : Formula × Str)
    (hx : x ∈ (pairStep P k mass s vu).1) : x ∈ vu.1 ∨ x = (k, s) := by
  rcases pairStep_violates_cases P k mass s vu with h | h | h <;> rw [h] at hx
  · exact Or.inl hx
  · simp only [List.mem_append, List.mem_singleton] at hx
    exact hx
  · simp only [List.mem_append, List.mem_singleton] at hx
    tauto

/-- The violation list only grows along a `pairStep`. -/
theorem pairStep_violates_mono (P : FilterParams) (k : Formula) (mass : Int)
    (s : Str) (vu : Violations × UniqList) (x : Formula × Str)
    (hx : x ∈ vu.1) : x ∈ (pairStep P k mass s vu).1 := by
  rcases pairStep_violates_cases P k mass s vu with h | h | h <;> rw [h]
  · exact hx
  · exact List.mem_append_left _ hx
  · exact List.mem_append_left _ (List.mem_append_left _ hx)

/-- Every collected violation is one of the visited pairs. -/
theorem runPairs_violates_mem (P : FilterParams) (ps : List (Formula × Int × Str)) :
    ∀ (vu : Violations × UniqList) (x : Formula × Str),
      x ∈ (runPairs P ps vu).1 → x ∈ vu.1 ∨ ∃ p ∈ ps, x = (p.1, p.2.2) := by
  induction ps with
  | nil => exact fun vu x hx => Or.inl hx
  | cons p rest ih =>
    intro vu x hx
    rw [show runPairs P (p :: rest) vu =
        runPairs P rest (pairStep P p.1 p.2.1 p.2.2 vu) from rfl] at hx
    rcases ih _ x hx with h | ⟨q, hq, rfl⟩
    · rcases pairStep_violates_mem P p.1 p.2.1 p.2.2 vu x h with h2 | h2
      · exact Or.inl h2
      · exact Or.inr ⟨p, List.mem_cons_self p rest, h2⟩
    · exact Or.inr ⟨q, List.mem_cons_of_mem p hq, rfl⟩

/-- A visited pair failing an early filter or the containment check is
collected as a violation. -/
theorem pairStep_violates_of_fail (P : FilterParams) (k : Formula) (mass : Int)
    (s : Str) (vu : Violations × UniqList)
    (h : pairEarlyPass P s = false ∨ pairContViol P s = true) :
    (k, s) ∈ (pairStep P k mass s vu).1 := by
  by_cases h1 : 2 ≤ countLower (stripSort s)
  · simp [pairStep, h1]
  · by_cases h2 : hasXl P.can_xl (stripSort s)
    · by_cases h3 : P.max_length < (stripSort s).length
      · simp [pairStep, h1, h3]
      · by_cases h4 : 1 < groupsHit P.nt_groups (stripSort s)
        · simp [pairStep, h1, h3, h4]
        · have hearly : pairEarlyPass P s = true := by
            simp [pairEarlyPass, Nat.not_le.mp h1, h2, Nat.not_lt.mp h3,
              Nat.not_lt.mp h4]
          rcases h with hfail | h5
          · rw [hearly] at hfail
            exact absurd hfail (by simp)
          · have h5' : containViolated P.target_sequences (stripSort s) = true := h5
            by_cases h6 : (stripSort s, mass) ∈ vu.2
            · simp [pairStep, h1, h2, h3, h4, h5', h6]
            · simp [pairStep, h1, h2, h3, h4, h5', h6]
    · simp [pairStep, h1, h2]

/-- Visited pairs failing an early filter or containment end up in the
violation list of the whole run. -/
theorem runPairs_violates_of_fail (P : FilterParams)
    (ps : List (Formula × Int × Str)) :
    ∀ (vu : Violations × UniqList) (q : Formula × Int × Str), q ∈ ps →
      (pairEarlyPass P q.2.2 = false ∨ pairContViol P q.2.2 = true) →
      (q.1, q.2.2) ∈ (runPairs P ps vu).1 := by
  induction ps with
  | nil => exact fun vu q hq _ => absurd hq (List.not_mem_nil q)
  | cons p rest ih =>
    intro vu q hq hfail
    rw [show runPairs P (p :: rest) vu =
        runPairs P rest (pairStep P p.1 p.2.1 p.2.2 vu) from rfl]
    rcases List.mem_cons.mp hq with rfl | hq2
    · have base := pairStep_violates_of_fail P q.1 q.2.1 q.2.2 vu hfail
      unfold runPairs
      refine foldl_inv
        (fun vu2 : Violations × UniqList => (q.1, q.2.2) ∈ vu2.1)
        _ rest _ base ?_
      intro b y _ hb
      exact pairStep_violates_mono P y.1 y.2.1 y.2.2 b (q.1, q.2.2) hb
    · exact ih _ q hq2 hfail

/-! ## Pipeline invariants for C2 and C3 -/

/-- `setInsort` is consing up to permutation. -/
theorem setInsort_perm {κ : Type} (lt : κ → κ → Bool) (x : κ) (s : List κ) :
    (setInsort lt x s).Perm (x :: s) := by
  induction s with
  | nil => simp [setInsort]
  | cons y r ih =>
    simp only [setInsort]
    split
    · exact List.Perm.refl _
    · exact (ih.cons y).trans (List.Perm.swap x y r)

/-- Set insertion keeps distinctness. -/
theorem setInsert_nodup {κ : Type} [DecidableEq κ] (lt : κ → κ → Bool) (x : κ)
    (s : List κ) (h : s.Nodup) : (setInsert lt x s).Nodup := by
  unfold setInsert
  split
  · exact h
  · exact ((setInsort_perm lt x s).nodup_iff).mpr (List.Nodup.cons (by assumption) h)

/-- A set after insertion is non-empty. -/
theorem setInsert_ne_nil {κ : Type} [DecidableEq κ] (lt : κ → κ → Bool) (x : κ)
    (s : List κ) : setInsert lt x s ≠ [] :=
  List.ne_nil_of_mem (mem_setInsert_self lt x s)

/-- A value property holding of all entries, preserved by the update map,
holds after an `operator[]` update. -/
theorem values_pred_update {κ α : Type} [DecidableEq κ] (Q : α → Prop)
    (lt : κ → κ → Bool) (k : κ) (d : α) (f : α → α) (m : List (κ × α))
    (hm : ∀ p ∈ m, Q p.2) (hf : ∀ v, Q v → Q (f v)) (hd : Q (f d)) :
    ∀ p ∈ alUpdate lt k d f m, Q p.2 := by
  intro p hp
  rcases mem_entries_update lt k d f m p hp with h | ⟨_, v, hv, hvm⟩
  · exact hm p h
  · rw [hv]
    rcases hvm with h | rfl
    · exact hf v (hm (k, v) h)
    · exact hd

/-- The single-nucleotide stage establishes the invariant (with the round's
combinations also serving as the accumulated ones). -/
theorem stage1_inv (tmap : List (Str × Formula)) (ntmods : NtModsMap) :
    (∀ k, k ∈ alKeys (stage1 tmap ntmods).2 → k ∈ (stage1 tmap ntmods).1) ∧
    (alKeys (stage1 tmap ntmods).2).Nodup ∧
    (∀ p ∈ (stage1 tmap ntmods).2, (p.2 : List Str).Nodup) := by
  unfold stage1
  refine foldl_inv (fun st : List Formula × ModsMap =>
    (∀ k, k ∈ alKeys st.2 → k ∈ st.1) ∧ (alKeys st.2).Nodup ∧
      ∀ p ∈ st.2, (p.2 : List Str).Nodup) _ tmap ([], [])
    ⟨fun k hk => absurd hk (by simp [alKeys]), by simp [alKeys], by simp⟩ ?_
  intro b a _ hb
  unfold stage1Step
  refine foldl_inv (fun st : List Formula × ModsMap =>
    (∀ k, k ∈ alKeys st.2 → k ∈ st.1) ∧ (alKeys st.2).Nodup ∧
      ∀ p ∈ st.2, (p.2 : List Str).Nodup) _ (alGetD ntmods a.1 []) b hb ?_
  intro st nm _ hst
  rw [if_neg (List.not_mem_nil _)]
  refine ⟨?_, ?_, ?_⟩
  · intro k hk
    rcases (mem_alKeys_update fLtB k _ [] _ st.2).mp hk with rfl | hk2
    · exact List.mem_append_right _ (List.mem_singleton.mpr rfl)
    · exact List.mem_append_left _ (hst.1 k hk2)
  · exact nodup_alKeys_update _ _ _ _ _ hst.2.1
  · exact values_pred_update _ _ _ _ _ _ hst.2.2
      (fun v hv => setInsert_nodup _ _ v hv) (setInsert_nodup _ _ [] (by simp))

/-- Keys after `chainInsert` are the target key or old keys. -/
theorem chainInsert_keys (nt : Str) (f : Formula) (ambs : List Str)
    (m : ModsMap) : ∀ k, k ∈ alKeys (chainInsert nt f ambs m) →
      k = f ∨ k ∈ alKeys m := by
  unfold chainInsert
  refine foldl_inv (fun mm : ModsMap => ∀ k, k ∈ alKeys mm → k = f ∨ k ∈ alKeys m)
    _ ambs m (fun k hk => Or.inr hk) ?_
  intro b x _ hb k hk
  rcases (mem_alKeys_update fLtB k f [] _ b).mp hk with rfl | hk2
  · exact Or.inl rfl
  · exact hb k hk2

/-- `chainInsert` keeps keys distinct. -/
theorem chainInsert_nodupKeys (nt : Str) (f : Formula) (ambs : List Str)
    (m : ModsMap) (h : (alKeys m).Nodup) :
    (alKeys (chainInsert nt f ambs m)).Nodup := by
  unfold chainInsert
  refine foldl_inv (fun mm : ModsMap => (alKeys mm).Nodup) _ ambs m h ?_
  intro b x _ hb
  exact nodup_alKeys_update _ _ _ _ _ hb

/-- `chainInsert` keeps ambiguity sets duplicate-free. -/
theorem chainInsert_valuesNodup (nt : Str) (f : Formula) (ambs : List Str)
    (m : ModsMap) (h : ∀ p ∈ m, (p.2 : List Str).Nodup) :
    ∀ p ∈ chainInsert nt f ambs m, (p.2 : List Str).Nodup := by
  unfold chainInsert
  refine foldl_inv (fun mm : ModsMap => ∀ p ∈ mm, (p.2 : List Str).Nodup)
    _ ambs m h ?_
  intro b x _ hb
  exact values_pred_update _ _ _ _ _ _ hb
    (fun v hv => setInsert_nodup _ _ v hv) (setInsert_nodup _ _ [] (by simp))

/-- One chain round preserves the invariant. -/
theorem chainRound_inv (tmap : List (Str × Formula)) (st : ChainState)
    (h : chainInv st) : chainInv (chainRound tmap st) := by
  obtain ⟨h1, h2, h3, h4⟩ := h
  have key : (fun z : List Formula × List Formula × ModsMap =>
      (∀ k, k ∈ alKeys z.2.2 → k ∈ z.2.1) ∧ (∀ x ∈ st.all, x ∈ z.2.1) ∧
        (∀ x ∈ z.1, x ∈ z.2.1) ∧ (alKeys z.2.2).Nodup ∧
        (∀ p ∈ z.2.2, (p.2 : List Str).Nodup))
      (tmap.foldl (fun z p => st.actual.foldl (chainStep p.1 p.2) z)
        (([] : List Formula), st.all, st.mods)) := by
    refine foldl_inv (fun z : List Formula × List Formula × ModsMap =>
        (∀ k, k ∈ alKeys z.2.2 → k ∈ z.2.1) ∧ (∀ x ∈ st.all, x ∈ z.2.1) ∧
          (∀ x ∈ z.1, x ∈ z.2.1) ∧ (alKeys z.2.2).Nodup ∧
          (∀ p ∈ z.2.2, (p.2 : List Str).Nodup)) _ tmap _
      ⟨h1, fun x hx => hx, by simp, h3, h4⟩ ?_
    intro b a _ hb
    refine foldl_inv (fun z : List Formula × List Formula × ModsMap =>
        (∀ k, k ∈ alKeys z.2.2 → k ∈ z.2.1) ∧ (∀ x ∈ st.all, x ∈ z.2.1) ∧
          (∀ x ∈ z.1, x ∈ z.2.1) ∧ (alKeys z.2.2).Nodup ∧
          (∀ p ∈ z.2.2, (p.2 : List Str).Nodup)) _ st.actual b hb ?_
    intro z ac hac hz
    obtain ⟨hz1, hz2, hz3, hz4, hz5⟩ := hz
    refine ⟨?_, ?_, ?_, ?_, ?_⟩
    · intro k hk
      rcases chainInsert_keys _ _ _ _ k hk with rfl | hk2
      · exact List.mem_append_right _ (List.mem_singleton.mpr rfl)
      · rcases (mem_alKeys_update fLtB k ac [] id z.2.2).mp hk2 with rfl | hk3
        · exact List.mem_append_left _ (hz2 k (h2 k hac))
        · exact List.mem_append_left _ (hz1 k hk3)
    · exact fun x hx => List.mem_append_left _ (hz2 x hx)
    · intro x hx
      rcases List.mem_append.mp hx with hx2 | hx2
      · exact List.mem_append_left _ (hz3 x hx2)
      · exact List.mem_append_right _ hx2
    · exact chainInsert_nodupKeys _ _ _ _ (nodup_alKeys_update _ _ _ _ _ hz4)
    · refine chainInsert_valuesNodup _ _ _ _ ?_
      exact values_pred_update _ _ _ _ _ _ hz5 (fun v hv => hv) (by simp)
  exact ⟨key.1, key.2.2.1, key.2.2.2⟩

/-- The whole chain stage preserves the invariant. -/
theorem chainStage_inv (tmap : List (Str × Formula)) (n : Nat) :
    ∀ st : ChainState, chainInv st →
      chainInv ((fun x => chainRound tmap x)^[n] st) := by
  induction n with
  | zero => exact fun st h => h
  | succ n ih =>
    intro st h
    rw [Function.iterate_succ_apply']
    exact chainRound_inv tmap _ (ih st h)

/-- The keys of the assembled mass map are exactly the accumulated
combinations. -/
theorem buildF2M_keys (all : List Formula) :
    ∀ k, k ∈ alKeys (buildF2M all) ↔ k ∈ all := by
  have aux : ∀ (l : List Formula) (m0 : F2M) (k : Formula),
      k ∈ alKeys (l.foldl (fun m f => alUpdate fLtB f 0 (fun _ => monoMass f) m) m0) ↔
        k ∈ alKeys m0 ∨ k ∈ l := by
    intro l
    induction l with
    | nil => intro m0 k; simp
    | cons f rest ih =>
      intro m0 k
      rw [List.foldl_cons, ih]
      rw [mem_alKeys_update]
      constructor
      · rintro ((rfl | h) | h)
        · exact Or.inr (List.mem_cons_self _ _)
        · exact Or.inl h
        · exact Or.inr (List.mem_cons_of_mem _ h)
      · rintro (h | h)
        · exact Or.inl (Or.inr h)
        · rcases List.mem_cons.mp h with rfl | h2
          · exact Or.inl (Or.inl rfl)
          · exact Or.inr h2
  intro k
  rw [show buildF2M all =
    all.foldl (fun m f => alUpdate fLtB f 0 (fun _ => monoMass f) m) [] from rfl,
    aux all [] k]
  simp [alKeys]

/-- The assembled mass map has distinct keys. -/
theorem buildF2M_nodupKeys (all : List Formula) :
    (alKeys (buildF2M all)).Nodup := by
  unfold buildF2M
  refine foldl_inv (fun m : F2M => (alKeys m).Nodup) _ all [] (by simp [alKeys]) ?_
  intro b f _ hb
  exact nodup_alKeys_update _ _ _ _ _ hb

/-- Invariants of any assembled pre-filter state: `mod_combinations` keys
are `formula2mass` keys, both maps have distinct keys, and every ambiguity
set is duplicate-free. -/
theorem assemblePreFilter_inv (tmap : List (Str × Formula))
    (z : List (Char × List Char) × Str) (ntmods : NtModsMap)
    (nt_groups : List Str) (can_xl : List Char) (max_length : Nat) :
    (∀ k, k ∈ alKeys (assemblePreFilter tmap z ntmods nt_groups can_xl max_length).mods →
      k ∈ alKeys (assemblePreFilter tmap z ntmods nt_groups can_xl max_length).f2m) ∧
    (alKeys (assemblePreFilter tmap z ntmods nt_groups can_xl max_length).f2m).Nodup ∧
    (alKeys (assemblePreFilter tmap z ntmods nt_groups can_xl max_length).mods).Nodup ∧
    (∀ p ∈ (assemblePreFilter tmap z ntmods nt_groups can_xl max_length).mods,
      (p.2 : List Str).Nodup) := by
  have hs1 := stage1_inv tmap ntmods
  have hstart : chainInv ⟨(stage1 tmap ntmods).1, (stage1 tmap ntmods).1,
      (stage1 tmap ntmods).2⟩ :=
    ⟨hs1.1, fun a ha => ha, hs1.2.1, hs1.2.2⟩
  have hchain : chainInv (chainStage tmap max_length
      ⟨(stage1 tmap ntmods).1, (stage1 tmap ntmods).1, (stage1 tmap ntmods).2⟩) :=
    chainStage_inv tmap (max_length - 1) _ hstart
  refine ⟨?_, buildF2M_nodupKeys _, hchain.2.2.1, hchain.2.2.2⟩
  intro k hk
  exact (buildF2M_keys _ k).mpr (hchain.1 k hk)

/-- Inverting a normal pre-filter computation: the state is an assembled
one. -/
theorem preFilterState_ok_inv (target_nucleotides nt_groups : List Str)
    (can_xl : List Char) (mappings modifications : List Str)
    (sequence_restriction : Str) (max_length : Nat) (pf : PreFilter)
    (h : preFilterState target_nucleotides nt_groups can_xl mappings
      modifications sequence_restriction max_length = some (Except.ok pf)) :
    ∃ (tmap : List (Str × Formula)) (z : List (Char × List Char) × Str)
      (ntmods : NtModsMap),
      pf = assemblePreFilter tmap z ntmods nt_groups can_xl max_length := by
  unfold preFilterState at h
  cases htm : parseTargets target_nucleotides with
  | none => rw [htm] at h; exact absurd h (by simp)
  | some tmap =>
    rw [htm] at h
    cases hsm : parseMappings mappings with
    | none => rw [hsm] at h; exact absurd h (by simp)
    | some smap0 =>
      rw [hsm] at h
      cases hpm : parseModificationsGo [] modifications with
      | none => rw [hpm] at h; exact absurd h (by simp)
      | some v =>
        rw [hpm] at h
        cases v with
        | error e => exact absurd h (by simp)
        | ok ntmods =>
          simp only [Option.some.injEq, Except.ok.injEq] at h
          exact ⟨tmap, _, ntmods, h.symm⟩

/-! ## Claim C3 -/

/-- Key membership as entry existence. -/
theorem mem_alKeys_iff {κ α : Type} (m : List (κ × α)) (k : κ) :
    k ∈ alKeys m ↔ ∃ v, (k, v) ∈ m := by
  unfold alKeys
  rw [List.mem_map]
  constructor
  · rintro ⟨p, hp, rfl⟩
    exact ⟨p.2, hp⟩
  · rintro ⟨v, hv⟩
    exact ⟨(k, v), hv, rfl⟩

/-- A value property holds of every lookup when it holds of every entry and
the default. -/
theorem alGetD_values_pred {κ α : Type} [DecidableEq κ] (Q : α → Prop)
    (m : List (κ × α)) (k : κ) (d : α) (hm : ∀ p ∈ m, Q p.2) (hd : Q d) :
    Q (alGetD m k d) := by
  induction m with
  | nil => exact hd
  | cons e r ih =>
    obtain ⟨a, b⟩ := e
    rw [alGetD_cons]
    split
    · exact hm (a, b) (List.mem_cons_self _ _)
    · exact ih (fun p hp => hm p (List.mem_cons_of_mem _ hp))

/-- Keys after the line-354 ensures: the old keys and the mass-map keys. -/
theorem mem_alKeys_ensureKeys (f2m : F2M) : ∀ (mods : ModsMap) (k : Formula),
    k ∈ alKeys (ensureKeys f2m mods) ↔ k ∈ alKeys mods ∨ k ∈ alKeys f2m := by
  induction f2m with
  | nil =>
    intro mods k
    simp [ensureKeys, alKeys]
  | cons km rest ih =>
    intro mods k
    rw [show ensureKeys (km :: rest) mods =
        ensureKeys rest (alUpdate fLtB km.1 [] id mods) from rfl, ih,
      mem_alKeys_update]
    rw [show alKeys (km :: rest) = km.1 :: alKeys rest from rfl, List.mem_cons]
    tauto

/-- The ensures keep keys distinct. -/
theorem nodup_alKeys_ensureKeys (f2m : F2M) : ∀ mods : ModsMap,
    (alKeys mods).Nodup → (alKeys (ensureKeys f2m mods)).Nodup := by
  induction f2m with
  | nil => exact fun mods h => h
  | cons km rest ih =>
    intro mods h
    exact ih _ (nodup_alKeys_update _ _ _ _ _ h)

/-- The ensures keep ambiguity sets duplicate-free. -/
theorem values_nodup_ensureKeys (f2m : F2M) : ∀ mods : ModsMap,
    (∀ p ∈ mods, (p.2 : List Str).Nodup) →
    ∀ p ∈ ensureKeys f2m mods, (p.2 : List Str).Nodup := by
  induction f2m with
  | nil => exact fun mods h => h
  | cons km rest ih =>
    intro mods h
    exact ih _ (values_pred_update _ _ _ _ _ _ h (fun v hv => hv) (by simp))

/-- Keys after erasing the violating strings. -/
theorem mem_alKeys_eraseViolations (viol : Violations) :
    ∀ (m : ModsMap) (k : Formula),
      k ∈ alKeys (eraseViolations m viol) ↔
        k ∈ alKeys m ∨ ∃ p ∈ viol, k = p.1 := by
  induction viol with
  | nil =>
    intro m k
    simp [eraseViolations]
  | cons p rest ih =>
    intro m k
    rw [show eraseViolations m (p :: rest) =
        eraseViolations (alUpdate fLtB p.1 [] (fun v => v.erase p.2) m) rest from rfl,
      ih, mem_alKeys_update]
    constructor
    · rintro ((rfl | h) | ⟨q, hq, rfl⟩)
      · exact Or.inr ⟨p, List.mem_cons_self _ _, rfl⟩
      · exact Or.inl h
      · exact Or.inr ⟨q, List.mem_cons_of_mem _ hq, rfl⟩
    · rintro (h | ⟨q, hq, rfl⟩)
      · exact Or.inl (Or.inr h)
      · rcases List.mem_cons.mp hq with rfl | hq2
        · exact Or.inl (Or.inl rfl)
        · exact Or.inr ⟨q, hq2, rfl⟩

/-- Erasing violating strings keeps keys distinct. -/
theorem nodup_alKeys_eraseViolations (viol : Violations) : ∀ m : ModsMap,
    (alKeys m).Nodup → (alKeys (eraseViolations m viol)).Nodup := by
  induction viol with
  | nil => exact fun m h => h
  | cons p rest ih =>
    intro m h
    exact ih _ (nodup_alKeys_update _ _ _ _ _ h)

/-- Erasing violating strings keeps ambiguity sets duplicate-free. -/
theorem values_nodup_eraseViolations (viol : Violations) : ∀ m : ModsMap,
    (∀ p ∈ m, (p.2 : List Str).Nodup) →
    ∀ p ∈ eraseViolations m viol, (p.2 : List Str).Nodup := by
  induction viol with
  | nil => exact fun m h => h
  | cons p rest ih =>
    intro m h
    refine ih _ (values_pred_update _ _ _ _ _ _ h ?_ ?_)
    · exact fun v hv => hv.erase _
    · simp

/-- A string surviving the violation erasure was recorded before and is not
a violating string of its key. -/
theorem getD_eraseViolations (viol : Violations) : ∀ (m : ModsMap)
    (k : Formula) (s : Str), (∀ p ∈ m, (p.2 : List Str).Nodup) →
    s ∈ alGetD (eraseViolations m viol) k [] →
    s ∈ alGetD m k [] ∧ (k, s) ∉ viol := by
  induction viol with
  | nil => exact fun m k s _ h => ⟨h, List.not_mem_nil _⟩
  | cons p rest ih =>
    intro m k s hvn hs
    rw [show eraseViolations m (p :: rest) =
        eraseViolations (alUpdate fLtB p.1 [] (fun v => v.erase p.2) m) rest
        from rfl] at hs
    have hvn2 : ∀ q ∈ alUpdate fLtB p.1 [] (fun v => v.erase p.2) m,
        (q.2 : List Str).Nodup :=
      values_pred_update _ _ _ _ _ _ hvn (fun v hv => hv.erase _) (by simp)
    obtain ⟨hs2, hs3⟩ := ih _ k s hvn2 hs
    by_cases hk : k = p.1
    · rw [hk] at hs2 hs3 ⊢
      rw [alGetD_update_self] at hs2
      have hnd : (alGetD m p.1 ([] : List Str)).Nodup :=
        alGetD_values_pred _ m p.1 [] hvn (by simp)
      rw [List.Nodup.mem_erase_iff hnd] at hs2
      refine ⟨hs2.2, ?_⟩
      intro hmem
      rcases List.mem_cons.mp hmem with he | hmem2
      · exact hs2.1 (congrArg Prod.snd he)
      · exact hs3 hmem2
    · rw [alGetD_update_ne _ _ _ _ _ _ _ hk] at hs2
      refine ⟨hs2, ?_⟩
      intro hmem
      rcases List.mem_cons.mp hmem with he | hmem2
      · exact hk (congrArg Prod.fst he)
      · exact hs3 hmem2

/-- Every visited pair's formula is a mass-map key. -/
theorem pairList_fst (f2m : F2M) (mods : ModsMap) :
    ∀ q ∈ pairList f2m mods, q.1 ∈ alKeys f2m := by
  intro q hq
  unfold pairList at hq
  rw [List.mem_flatten] at hq
  obtain ⟨l, hl, hql⟩ := hq
  rw [List.mem_map] at hl
  obtain ⟨km, hkm, rfl⟩ := hl
  rw [List.mem_map] at hql
  obtain ⟨sx, _, rfl⟩ := hql
  exact (mem_alKeys_iff f2m km.1).mpr ⟨km.2, hkm⟩

/-- Keys of the mass map after the empty-set erase loop: old keys whose
ambiguity set was not empty. -/
theorem mem_alKeys_eraseEmpty_f2m (l : ModsMap) :
    ∀ (fm : F2M) (k : Formula),
      k ∈ alKeys (l.foldl
          (fun fm p => if p.2.isEmpty then alErase p.1 fm else fm) fm) ↔
        k ∈ alKeys fm ∧ ∀ p ∈ l, p.1 = k → p.2 ≠ [] := by
  induction l with
  | nil =>
    intro fm k
    simp
  | cons p rest ih =>
    intro fm k
    rw [List.foldl_cons, ih]
    by_cases hp : (p.2 : List Str).isEmpty
    · have hpe : (p.2 : List Str) = [] := List.isEmpty_iff.mp hp
      rw [if_pos hp, mem_alKeys_erase]
      constructor
      · rintro ⟨⟨h1, h2⟩, h3⟩
        refine ⟨h1, ?_⟩
        intro q hq
        rcases List.mem_cons.mp hq with rfl | hq2
        · intro hqk
          exact absurd hqk.symm (by simpa using h2)
        · exact h3 q hq2
      · rintro ⟨h1, h2⟩
        refine ⟨⟨h1, ?_⟩, fun q hq => h2 q (List.mem_cons_of_mem _ hq)⟩
        intro hk
        exact h2 p (List.mem_cons_self _ _) (by rw [hk]) hpe
    · rw [if_neg hp]
      have hpe : (p.2 : List Str) ≠ [] := by
        intro he
        exact hp (by rw [he]; rfl)
      constructor
      · rintro ⟨h1, h2⟩
        refine ⟨h1, ?_⟩
        intro q hq
        rcases List.mem_cons.mp hq with rfl | hq2
        · exact fun _ => hpe
        · exact h2 q hq2
      · rintro ⟨h1, h2⟩
        exact ⟨h1, fun q hq => h2 q (List.mem_cons_of_mem _ hq)⟩

/-- Keys of the ambiguity map after the empty-set erase loop. -/
theorem mem_alKeys_filter_nonempty (m : ModsMap) (k : Formula) :
    k ∈ alKeys (m.filter (fun p => !p.2.isEmpty)) ↔
      ∃ v, (k, v) ∈ m ∧ v ≠ [] := by
  rw [mem_alKeys_iff]
  constructor
  · rintro ⟨v, hv⟩
    rw [List.mem_filter] at hv
    refine ⟨v, hv.1, ?_⟩
    intro he
    have := hv.2
    rw [he] at this
    exact absurd this (by simp)
  · rintro ⟨v, hv, hne⟩
    refine ⟨v, List.mem_filter.mpr ⟨hv, ?_⟩⟩
    simpa [List.isEmpty_iff] using hne

/-- The restriction filter and the two erase loops keep the key sets of the
two result maps identical and leave no empty ambiguity set. -/
theorem applyFilters_sync (pf : PreFilter)
    (hinc : ∀ k, k ∈ alKeys pf.mods → k ∈ alKeys pf.f2m)
    (hndm : (alKeys pf.mods).Nodup) :
    (∀ k, k ∈ alKeys (applyFilters pf).formula2mass ↔
      k ∈ alKeys (applyFilters pf).mod_combinations) ∧
    (∀ p ∈ (applyFilters pf).mod_combinations, p.2 ≠ []) := by
  have happ : applyFilters pf =
      ⟨(eraseViolations (ensureKeys pf.f2m pf.mods)
          (runPairs pf.params (pairList pf.f2m pf.mods) ([], [])).1).foldl
        (fun fm p => if p.2.isEmpty then alErase p.1 fm else fm) pf.f2m,
       (eraseViolations (ensureKeys pf.f2m pf.mods)
          (runPairs pf.params (pairList pf.f2m pf.mods) ([], [])).1).filter
        (fun p => !p.2.isEmpty)⟩ := by
    unfold applyFilters
    rw [filterLoop_eq]
    rfl
  set viol := (runPairs pf.params (pairList pf.f2m pf.mods) ([], [])).1 with hviol
  set mods2 := eraseViolations (ensureKeys pf.f2m pf.mods) viol with hmods2
  have hset : ∀ k, k ∈ alKeys mods2 ↔ k ∈ alKeys pf.f2m := by
    intro k
    rw [hmods2, mem_alKeys_eraseViolations, mem_alKeys_ensureKeys]
    constructor
    · rintro ((h | h) | ⟨q, hq, rfl⟩)
      · exact hinc k h
      · exact h
      · rcases runPairs_violates_mem pf.params (pairList pf.f2m pf.mods) ([], []) q hq
          with h2 | ⟨p2, hp2, rfl⟩
        · exact absurd h2 (List.not_mem_nil _)
        · exact pairList_fst pf.f2m pf.mods p2 hp2
    · intro h
      exact Or.inl (Or.inr h)
  have hnd2 : (alKeys mods2).Nodup := by
    rw [hmods2]
    exact nodup_alKeys_eraseViolations _ _ (nodup_alKeys_ensureKeys _ _ hndm)
  rw [happ]
  constructor
  · intro k
    rw [show (NuXLModificationMassesResult.mk _ _).formula2mass =
        mods2.foldl (fun fm p => if p.2.isEmpty then alErase p.1 fm else fm) pf.f2m
        from rfl,
      show (NuXLModificationMassesResult.mk _ _).mod_combinations =
        mods2.filter (fun p => !p.2.isEmpty) from rfl,
      mem_alKeys_eraseEmpty_f2m, mem_alKeys_filter_nonempty]
    constructor
    · rintro ⟨h1, h2⟩
      obtain ⟨v, hv⟩ := (mem_alKeys_iff mods2 k).mp ((hset k).mpr h1)
      exact ⟨v, hv, h2 (k, v) hv rfl⟩
    · rintro ⟨v, hv, hne⟩
      have hk2 : k ∈ alKeys mods2 := (mem_alKeys_iff mods2 k).mpr ⟨v, hv⟩
      refine ⟨(hset k).mp hk2, ?_⟩
      intro q hq hqk
      have h1 : alGetD mods2 k [] = v := alGetD_of_mem_nodup mods2 k v [] hv hnd2
      have h2 : alGetD mods2 k [] = q.2 := by
        have hq2 : (k, q.2) ∈ mods2 := by
          have : q = (k, q.2) := by
            rw [← hqk]
          rw [← this]
          exact hq
        exact alGetD_of_mem_nodup mods2 k q.2 [] hq2 hnd2
      rw [← h2, h1]
      exact hne
  · intro p hp
    rw [show (NuXLModificationMassesResult.mk _ _).mod_combinations =
        mods2.filter (fun p => !p.2.isEmpty) from rfl] at hp
    rw [List.mem_filter] at hp
    intro he
    have := hp.2
    rw [he] at this
    exact absurd this (by simp)

/-- Inverting a normal run: the result is the cysteine-extension of the
filtered pre-filter state. -/
theorem run_ok_inv (target_nucleotides nt_groups : List Str) (can_xl : List Char)
    (mappings modifications : List Str) (sequence_restriction : Str)
    (cysteine_adduct : Bool) (max_length : Nat) (r : NuXLModificationMassesResult)
    (h : initModificationMassesNA target_nucleotides nt_groups can_xl mappings
      modifications sequence_restriction cysteine_adduct max_length =
      some (Except.ok r)) :
    ∃ pf, preFilterState target_nucleotides nt_groups can_xl mappings
        modifications sequence_restriction max_length = some (Except.ok pf) ∧
      r = addCysteine cysteine_adduct (applyFilters pf) := by
  unfold initModificationMassesNA at h
  cases hpre : preFilterState target_nucleotides nt_groups can_xl mappings
      modifications sequence_restriction max_length with
  | none => rw [hpre] at h; exact absurd h (by simp)
  | some v =>
    rw [hpre] at h
    cases v with
    | error e => exact absurd h (by simp)
    | ok pf =>
      simp only [Option.some.injEq, Except.ok.injEq] at h
      exact ⟨pf, rfl, h.symm⟩

/-- Claim C3: whenever `initModificationMassesNA` returns, the key set of
the returned `formula2mass` equals the key set of the returned
`mod_combinations`, and no key maps to an empty ambiguity set (keys whose
set empties during filtering are removed from both maps; the optional
cysteine adduct is added to both). -/
theorem c3_key_sets_synchronized (target_nucleotides nt_groups : List Str)
    (can_xl : List Char) (mappings modifications : List Str)
    (sequence_restriction : Str) (cysteine_adduct : Bool) (max_length : Nat)
    (r : NuXLModificationMassesResult)
    (h : initModificationMassesNA target_nucleotides nt_groups can_xl mappings
      modifications sequence_restriction cysteine_adduct max_length =
      some (Except.ok r)) :
    (∀ k, k ∈ alKeys r.formula2mass ↔ k ∈ alKeys r.mod_combinations) ∧
    (∀ p ∈ r.mod_combinations, p.2 ≠ []) := by
  obtain ⟨pf, hpre, rfl⟩ := run_ok_inv target_nucleotides nt_groups can_xl
    mappings modifications sequence_restriction cysteine_adduct max_length r h
  obtain ⟨tmap, z, ntmods, rfl⟩ := preFilterState_ok_inv target_nucleotides
    nt_groups can_xl mappings modifications sequence_restriction max_length pf hpre
  obtain ⟨hinc, hndf, hndm, hvn⟩ := assemblePreFilter_inv tmap z ntmods
    nt_groups can_xl max_length
  have hsync := applyFilters_sync _ hinc hndm
  cases cysteine_adduct with
  | false => exact hsync
  | true =>
    unfold addCysteine
    rw [if_pos rfl]
    constructor
    · intro k
      rw [show (NuXLModificationMassesResult.mk
          (alUpdate fLtB cysteine_adduct_formula 0
            (fun _ => monoMass cysteine_adduct_formula)
            (applyFilters (assemblePreFilter tmap z ntmods nt_groups can_xl
              max_length)).formula2mass) _).formula2mass =
          alUpdate fLtB cysteine_adduct_formula 0
            (fun _ => monoMass cysteine_adduct_formula)
            (applyFilters (assemblePreFilter tmap z ntmods nt_groups can_xl
              max_length)).formula2mass from rfl]
      rw [mem_alKeys_update, mem_alKeys_update, hsync.1 k]
    · intro p hp
      rcases mem_entries_update _ _ _ _ _ p hp with h2 | ⟨_, v, hv, _⟩
      · exact hsync.2 p h2
      · rw [hv]
        exact setInsert_ne_nil _ _ _

/-- Witness for C3 at the concrete C1 scenario run. -/
theorem c3_key_sets_synchronized_witness :
    (∀ k, k ∈ alKeys (NuXLModificationMassesResult.mk
        [(c1FormulaU, monoMass c1FormulaU), (c1CondAU, monoMass c1CondAU)]
        [(c1FormulaU, [['U']]), (c1CondAU, [['A', 'U']])]).formula2mass ↔
      k ∈ alKeys (NuXLModificationMassesResult.mk
        [(c1FormulaU, monoMass c1FormulaU), (c1CondAU, monoMass c1CondAU)]
        [(c1FormulaU, [['U']]), (c1CondAU, [['A', 'U']])]).mod_combinations) ∧
    (∀ p ∈ (NuXLModificationMassesResult.mk
        [(c1FormulaU, monoMass c1FormulaU), (c1CondAU, monoMass c1CondAU)]
        [(c1FormulaU, [['U']]), (c1CondAU, [['A', 'U']])]).mod_combinations,
      p.2 ≠ []) :=
  c3_key_sets_synchronized c1TargetNucleotides [] ['U'] []
    [['A', ':'], ['U', ':']] ['A', 'U'] false 2 _ (by decide)

/-! ## Claim C2 -/

/-- An element of an inserted set is the inserted element or an old one. -/
theorem mem_setInsert_cases {κ : Type} [DecidableEq κ] (lt : κ → κ → Bool)
    (x y : κ) (s : List κ) (h : y ∈ setInsert lt x s) : y = x ∨ y ∈ s := by
  unfold setInsert at h
  split at h
  · exact Or.inr h
  · exact (mem_setInsort lt x y s).mp h

/-- Building a visited pair from a mass-map entry and a recorded string. -/
theorem mem_pairList_intro (f2m : F2M) (mods : ModsMap) (k : Formula)
    (mass : Int) (s : Str) (hkm : (k, mass) ∈ f2m)
    (hs : s ∈ alGetD mods k []) : (k, mass, s) ∈ pairList f2m mods := by
  unfold pairList
  rw [List.mem_flatten]
  refine ⟨(alGetD mods k []).map (fun s => (k, mass, s)), ?_, ?_⟩
  · exact List.mem_map.mpr ⟨(k, mass), hkm, rfl⟩
  · exact List.mem_map.mpr ⟨s, hs, rfl⟩

/-- Every ambiguity string retained by the restriction filter passed the
four early filters and the containment check. -/
theorem applyFilters_retained (pf : PreFilter)
    (hinc : ∀ k, k ∈ alKeys pf.mods → k ∈ alKeys pf.f2m)
    (hndm : (alKeys pf.mods).Nodup)
    (hvn : ∀ p ∈ pf.mods, (p.2 : List Str).Nodup) :
    ∀ p ∈ (applyFilters pf).mod_combinations, ∀ s ∈ p.2,
      pairEarlyPass pf.params s = true ∧ pairContViol pf.params s = false := by
  have happ : applyFilters pf =
      ⟨(eraseViolations (ensureKeys pf.f2m pf.mods)
          (runPairs pf.params (pairList pf.f2m pf.mods) ([], [])).1).foldl
        (fun fm p => if p.2.isEmpty then alErase p.1 fm else fm) pf.f2m,
       (eraseViolations (ensureKeys pf.f2m pf.mods)
          (runPairs pf.params (pairList pf.f2m pf.mods) ([], [])).1).filter
        (fun p => !p.2.isEmpty)⟩ := by
    unfold applyFilters
    rw [filterLoop_eq]
    rfl
  set viol := (runPairs pf.params (pairList pf.f2m pf.mods) ([], [])).1 with hviol
  set modsE := ensureKeys pf.f2m pf.mods with hmodsE
  set mods2 := eraseViolations modsE viol with hmods2
  have hnd2 : (alKeys mods2).Nodup := by
    rw [hmods2]
    exact nodup_alKeys_eraseViolations _ _ (nodup_alKeys_ensureKeys _ _ hndm)
  have hvnE : ∀ p ∈ modsE, (p.2 : List Str).Nodup :=
    values_nodup_ensureKeys _ _ hvn
  intro p hp s hs
  rw [happ] at hp
  rw [show (NuXLModificationMassesResult.mk _ (mods2.filter
      (fun p => !p.2.isEmpty))).mod_combinations =
    mods2.filter (fun p => !p.2.isEmpty) from rfl] at hp
  have hp2 : p ∈ mods2 := (List.mem_filter.mp hp).1
  have hgetd : alGetD mods2 p.1 [] = p.2 := by
    have hpe : (p.1, p.2) ∈ mods2 := by
      rw [show ((p.1, p.2) : Formula × List Str) = p from rfl]
      exact hp2
    exact alGetD_of_mem_nodup mods2 p.1 p.2 [] hpe hnd2
  have hs2 : s ∈ alGetD mods2 p.1 [] := by
    rw [hgetd]
    exact hs
  rw [hmods2] at hs2
  obtain ⟨hsE, hnv⟩ := getD_eraseViolations viol modsE p.1 s hvnE hs2
  have hsmods : s ∈ alGetD pf.mods p.1 [] := by
    rw [hmodsE] at hsE
    rw [← alGetD_ensureKeys pf.f2m pf.mods p.1]
    exact hsE
  have hkf2m : p.1 ∈ alKeys pf.f2m := by
    have hk2 : p.1 ∈ alKeys mods2 := (mem_alKeys_iff mods2 p.1).mpr ⟨p.2, by
      rw [show ((p.1, p.2) : Formula × List Str) = p from rfl]
      exact hp2⟩
    rw [hmods2, mem_alKeys_eraseViolations, hmodsE, mem_alKeys_ensureKeys] at hk2
    rcases hk2 with (h | h) | ⟨q, hq, heq⟩
    · exact hinc _ h
    · exact h
    · rcases runPairs_violates_mem pf.params (pairList pf.f2m pf.mods) ([], []) q hq
        with h2 | ⟨p2, hp2, hq2⟩
      · exact absurd h2 (List.not_mem_nil _)
      · rw [heq, hq2]
        exact pairList_fst pf.f2m pf.mods p2 hp2
  obtain ⟨mass, hmass⟩ := (mem_alKeys_iff pf.f2m p.1).mp hkf2m
  have hpair : (p.1, mass, s) ∈ pairList pf.f2m pf.mods :=
    mem_pairList_intro pf.f2m pf.mods p.1 mass s hmass hsmods
  by_cases hE : pairEarlyPass pf.params s = true
  · by_cases hC : pairContViol pf.params s = true
    · exact absurd (runPairs_violates_of_fail pf.params _ ([], [])
        (p.1, mass, s) hpair (Or.inr hC)) hnv
    · exact ⟨hE, by simpa using hC⟩
  · refine absurd (runPairs_violates_of_fail pf.params _ ([], [])
      (p.1, mass, s) hpair (Or.inl ?_)) hnv
    simpa using hE

/-- Claim C2 (amended): every (key, ambiguity string) retained in the
returned `mod_combinations` either is the fixed cysteine adduct entry —
appended after all filtering when the flag is set, and exempt from the
invariant — or satisfies the filter invariant: stripping the string from
the first '+' or '-' onward and sorting yields a composition with at most
one lower-case symbol, at least one cross-linkable symbol, length at most
`max_length`, and anagram-window containment in at least one generated
target sequence. -/
theorem c2_retained_strings_pass_filters (target_nucleotides nt_groups : List Str)
    (can_xl : List Char) (mappings modifications : List Str)
    (sequence_restriction : Str) (cysteine_adduct : Bool) (max_length : Nat)
    (pf : PreFilter) (r : NuXLModificationMassesResult)
    (hpre : preFilterState target_nucleotides nt_groups can_xl mappings
      modifications sequence_restriction max_length = some (Except.ok pf))
    (hrun : initModificationMassesNA target_nucleotides nt_groups can_xl mappings
      modifications sequence_restriction cysteine_adduct max_length =
      some (Except.ok r)) :
    ∀ p ∈ r.mod_combinations, ∀ s ∈ p.2,
      (cysteine_adduct = true ∧ p.1 = cysteine_adduct_formula ∧
        s = cysteine_adduct_string) ∨
      (countLower (stripSort s) < 2 ∧
        hasXl pf.params.can_xl (stripSort s) = true ∧
        (stripSort s).length ≤ pf.params.max_length ∧
        ∃ t ∈ pf.params.target_sequences, notInSeq t (stripSort s) = false) := by
  obtain ⟨pf2, hpre2, rfl⟩ := run_ok_inv target_nucleotides nt_groups can_xl
    mappings modifications sequence_restriction cysteine_adduct max_length r hrun
  rw [hpre] at hpre2
  have hpf : pf2 = pf := by
    have := Option.some.inj hpre2
    exact (Except.ok.inj this).symm
  subst hpf
  obtain ⟨tmap, z, ntmods, hasm⟩ := preFilterState_ok_inv target_nucleotides
    nt_groups can_xl mappings modifications sequence_restriction max_length pf2 hpre
  have hinv := assemblePreFilter_inv tmap z ntmods nt_groups can_xl max_length
  rw [← hasm] at hinv
  obtain ⟨hinc, hndf, hndm, hvn⟩ := hinv
  have hret := applyFilters_retained pf2 hinc hndm hvn
  have hmain : ∀ p ∈ (applyFilters pf2).mod_combinations, ∀ s ∈ p.2,
      countLower (stripSort s) < 2 ∧
        hasXl pf2.params.can_xl (stripSort s) = true ∧
        (stripSort s).length ≤ pf2.params.max_length ∧
        ∃ t ∈ pf2.params.target_sequences, notInSeq t (stripSort s) = false := by
    intro p hp s hs
    obtain ⟨hE, hC⟩ := hret p hp s hs
    have hE2 := hE
    simp only [pairEarlyPass, Bool.and_eq_true, decide_eq_true_eq] at hE2
    refine ⟨hE2.1.1.1, hE2.1.1.2, hE2.1.2, ?_⟩
    have hC2 : containViolated pf2.params.target_sequences (stripSort s) = false := hC
    unfold containViolated at hC2
    have hcount : (pf2.params.target_sequences.countP
        (fun t => notInSeq t (stripSort s))) ≠
        pf2.params.target_sequences.length := by
      intro he
      rw [he] at hC2
      simp at hC2
    have hex : ¬∀ t ∈ pf2.params.target_sequences,
        notInSeq t (stripSort s) = true := by
      intro hall
      exact hcount (List.countP_eq_length.mpr hall)
    push_neg at hex
    obtain ⟨t, ht, htf⟩ := hex
    exact ⟨t, ht, by simpa using htf⟩
  cases cysteine_adduct with
  | false => exact fun p hp s hs => Or.inr (hmain p hp s hs)
  | true =>
    intro p hp s hs
    unfold addCysteine at hp
    rw [if_pos rfl] at hp
    rcases mem_entries_update _ _ _ _ _ p hp with h2 | ⟨hk, v, hv, hvm⟩
    · exact Or.inr (hmain p h2 s hs)
    · rw [hv] at hs
      rcases mem_setInsert_cases _ _ _ _ hs with rfl | hsv
      · exact Or.inl ⟨rfl, hk, rfl⟩
      · rcases hvm with hvm | rfl
        · have : ∀ sx ∈ v, countLower (stripSort sx) < 2 ∧
              hasXl pf2.params.can_xl (stripSort sx) = true ∧
              (stripSort sx).length ≤ pf2.params.max_length ∧
              ∃ t ∈ pf2.params.target_sequences, notInSeq t (stripSort sx) = false :=
            hmain (cysteine_adduct_formula, v) hvm
          exact Or.inr (this s hsv)
        · exact absurd hsv (List.not_mem_nil s)

/-- Claim C2 counterexample: with the cysteine flag set, the returned map
retains the fixed C4H8S2O2 entry whose stripped-and-sorted label contains
no symbol of the cross-linkable setU and has length 8 over a maximum
of 2 — the claimed invariant does not cover the appended adduct. -/
theorem c2_cysteine_entry_violates :
    initModificationMassesNA c1TargetNucleotides [] ['U'] []
        [['A', ':'], ['U', ':']] ['A', 'U'] true 2 =
      some (Except.ok c2CysResult) ∧
    (cysteine_adduct_formula, [cysteine_adduct_string]) ∈
      c2CysResult.mod_combinations ∧
    hasXl ['U'] (stripSort cysteine_adduct_string) = false ∧
    2 < (stripSort cysteine_adduct_string).length := by decide

/-- Witness for the amended C2 theorem at the concrete C1 scenario: the
retained pair (formula of U, "U") satisfies the filter invariant. -/
theorem c2_retained_strings_pass_filters_witness :
    (false = true ∧ c1FormulaU = cysteine_adduct_formula ∧
      (['U'] : Str) = cysteine_adduct_string) ∨
    (countLower (stripSort ['U']) < 2 ∧
      hasXl c2PF.params.can_xl (stripSort ['U']) = true ∧
      (stripSort ['U']).length ≤ c2PF.params.max_length ∧
      ∃ t ∈ c2PF.params.target_sequences, notInSeq t (stripSort ['U']) = false) :=
  c2_retained_strings_pass_filters c1TargetNucleotides [] ['U'] []
    [['A', ':'], ['U', ':']] ['A', 'U'] false 2 c2PF
    ⟨[(c1FormulaU, monoMass c1FormulaU), (c1CondAU, monoMass c1CondAU)],
      [(c1FormulaU, [['U']]), (c1CondAU, [['A', 'U']])]⟩
    (by decide) (by decide)
    (c1FormulaU, [['U']]) (by decide) ['U'] (by decide)

/-! ## Claim C8 -/

/-- One unfolding step of the mapping parse on a non-empty list. -/
theorem parseMappingsGo_cons (acc : List (Char × List Char)) (s : Str)
    (l : List Str) : parseMappingsGo acc (s :: l) =
      match strSplit ['-', '>'] s with
      | f0 :: f1 :: _ => parseMappingsGo
          (alUpdate charLtB (cppHead f0) [] (fun v => v ++ [cppHead f1]) acc) l
      | _ => none := rfl

/-- Appending further mapping strings continues the mapping parse from the
accumulated map. -/
theorem parseMappingsGo_append (ms2 : List Str) : ∀ (ms : List Str)
    (acc out : List (Char × List Char)), parseMappingsGo acc ms = some out →
    parseMappingsGo acc (ms ++ ms2) = parseMappingsGo out ms2 := by
  intro ms
  induction ms with
  | nil =>
    intro acc out h
    cases Option.some.inj h
    rfl
  | cons s rest ih =>
    intro acc out h
    rw [List.cons_append]
    rw [parseMappingsGo_cons] at h
    rw [parseMappingsGo_cons]
    cases hsp : strSplit ['-', '>'] s with
    | nil =>
      rw [hsp] at h
      exact Option.noConfusion h
    | cons f0 fs =>
      cases fs with
      | nil =>
        rw [hsp] at h
        exact Option.noConfusion h
      | cons f1 fsrest =>
        rw [hsp] at h
        exact ih _ _ h

/-- Inserting a fresh identity rule (source equals single target) anywhere
into the substitution map does not change the trivial-erase pass: the new
entry is erased without touching the restriction sequence. -/
theorem eraseTrivial_insort_trivial (c : Char) :
    ∀ (m : List (Char × List Char)) (r : Str),
      eraseTrivial (alInsort charLtB (c, [c]) m) r = eraseTrivial m r := by
  intro m
  induction m with
  | nil =>
    intro r
    have h2 : eraseTrivial [(c, [c])] r =
        if c = c then eraseTrivial [] r else eraseTrivial [] (chSub c c r) := rfl
    show eraseTrivial [(c, [c])] r = eraseTrivial [] r
    rw [h2, if_pos rfl]
  | cons p rest ih =>
    intro r
    obtain ⟨k, ts⟩ := p
    have h0 : alInsort charLtB (c, [c]) ((k, ts) :: rest) =
        if charLtB c k = true then (c, [c]) :: (k, ts) :: rest
        else (k, ts) :: alInsort charLtB (c, [c]) rest := rfl
    by_cases hlt : charLtB c k = true
    · have h1 : alInsort charLtB (c, [c]) ((k, ts) :: rest) =
          (c, [c]) :: (k, ts) :: rest := by
        rw [h0, if_pos hlt]
      have h2 : eraseTrivial ((c, [c]) :: (k, ts) :: rest) r =
          if c = c then eraseTrivial ((k, ts) :: rest) r
          else eraseTrivial ((k, ts) :: rest) (chSub c c r) := rfl
      rw [h1, h2, if_pos rfl]
    · have h1 : alInsort charLtB (c, [c]) ((k, ts) :: rest) =
          (k, ts) :: alInsort charLtB (c, [c]) rest := by
        rw [h0, if_neg hlt]
      rw [h1]
      cases ts with
      | nil =>
        have h2 : ∀ (m : List (Char × List Char)),
            eraseTrivial ((k, ([] : List Char)) :: m) r =
            ((k, ([] : List Char)) :: (eraseTrivial m r).1,
              (eraseTrivial m r).2) := fun m => rfl
        rw [h2, h2, ih r]
      | cons t ts2 =>
        cases ts2 with
        | nil =>
          have h2 : ∀ (m : List (Char × List Char)),
              eraseTrivial ((k, [t]) :: m) r =
              if k = t then eraseTrivial m r
              else eraseTrivial m (chSub k t r) := fun m => rfl
          rw [h2, h2]
          by_cases hkt : k = t
          · rw [if_pos hkt, if_pos hkt, ih r]
          · rw [if_neg hkt, if_neg hkt, ih (chSub k t r)]
        | cons t2 ts3 =>
          have h2 : ∀ (m : List (Char × List Char)),
              eraseTrivial ((k, t :: t2 :: ts3) :: m) r =
              ((k, t :: t2 :: ts3) :: (eraseTrivial m r).1,
                (eraseTrivial m r).2) := fun m => rfl
          rw [h2, h2, ih r]

/-- Claim C8 (amended): appending a substitution rule whose parsed source
character equals its single parsed target character leaves the returned
result unchanged, provided the supplied restriction sequence is non-empty
(otherwise the rule's source character enters the auto-generated
restriction) and no existing mapping already uses that source character
(otherwise the entry gains a second target and is kept instead of
erased). -/
theorem c8_trivial_rule_no_effect (target_nucleotides nt_groups : List Str)
    (can_xl : List Char) (mappings modifications : List Str)
    (sequence_restriction : Str) (cysteine_adduct : Bool) (max_length : Nat)
    (c : Char) (rule : Str) (smap0 : List (Char × List Char))
    (f0 f1 : Str) (rest0 : List Str)
    (hr : sequence_restriction ≠ [])
    (hm : parseMappings mappings = some smap0)
    (hk : c ∉ alKeys smap0)
    (hsp : strSplit ['-', '>'] rule = f0 :: f1 :: rest0)
    (h0 : cppHead f0 = c) (h1 : cppHead f1 = c) :
    initModificationMassesNA target_nucleotides nt_groups can_xl
        (mappings ++ [rule]) modifications sequence_restriction
        cysteine_adduct max_length =
      initModificationMassesNA target_nucleotides nt_groups can_xl
        mappings modifications sequence_restriction cysteine_adduct
        max_length := by
  have hone : parseMappingsGo smap0 [rule] =
      some (alUpdate charLtB c [] (fun v => v ++ [c]) smap0) := by
    unfold parseMappingsGo
    rw [hsp]
    show parseMappingsGo
        (alUpdate charLtB (cppHead f0) [] (fun v => v ++ [cppHead f1]) smap0) [] = _
    rw [h0, h1]
    rfl
  have hupd : alUpdate charLtB c [] (fun v => v ++ [c]) smap0 =
      alInsort charLtB (c, [c]) smap0 := by
    unfold alUpdate
    rw [if_neg hk]
    rfl
  have hm2 : parseMappings (mappings ++ [rule]) =
      some (alInsort charLtB (c, [c]) smap0) := by
    unfold parseMappings at hm ⊢
    rw [parseMappingsGo_append [rule] mappings [] smap0 hm, hone, hupd]
  have hpre : preFilterState target_nucleotides nt_groups can_xl
      (mappings ++ [rule]) modifications sequence_restriction max_length =
      preFilterState target_nucleotides nt_groups can_xl mappings
        modifications sequence_restriction max_length := by
    unfold preFilterState
    cases hpt : parseTargets target_nucleotides with
    | none => rfl
    | some tmap =>
      rw [hm, hm2]
      simp only [if_neg hr, eraseTrivial_insort_trivial]
  unfold initModificationMassesNA
  rw [hpre]

/-- Claim C8 counterexample: with an empty restriction sequence, running
without any mapping yields empty maps, while adding only the trivial rule
"A->A" changes the source-nucleotide alphabet, hence the auto-generated
restriction sequence, and the result retains two formulas. -/
theorem c8_trivial_rule_changes_output :
    initModificationMassesNA c1TargetNucleotides [] ['A'] []
        [['A', ':'], ['U', ':']] [] false 2 =
      some (Except.ok ⟨[], []⟩) ∧
    initModificationMassesNA c1TargetNucleotides [] ['A']
        [['A', '-', '>', 'A']] [['A', ':'], ['U', ':']] [] false 2 =
      some (Except.ok c8Run2) ∧
    c8Run2 ≠ ⟨[], []⟩ := by decide

/-- Witness for the amended C8 theorem: with non-empty restriction "AU"
and no other mappings, adding "A->A" leaves the result unchanged. -/
theorem c8_trivial_rule_no_effect_witness :
    initModificationMassesNA c1TargetNucleotides [] ['A']
        [['A', '-', '>', 'A']] [['A', ':'], ['U', ':']] ['A', 'U'] false 2 =
      initModificationMassesNA c1TargetNucleotides [] ['A'] []
        [['A', ':'], ['U', ':']] ['A', 'U'] false 2 :=
  c8_trivial_rule_no_effect c1TargetNucleotides [] ['A'] []
    [['A', ':'], ['U', ':']] ['A', 'U'] false 2 'A' ['A', '-', '>', 'A'] []
    ['A'] ['A'] [] (by decide) (by decide) (by decide) (by decide)
    (by decide) (by decide)

end NuXL
